import Mathlib

/-!
Verification of the experimental fill tessellator's core
(`tessellation/src/experimental.rs`): the lexicographic order predicate,
the fill-rule winding logic, the span bookkeeping, the event traversal
(its bubble-sort with sibling grouping), the traversal builder, and the
top-level sweep entry points.

Coordinates are modelled exactly as rationals (the source uses `f32`;
all operations the claims depend on are order comparisons and ring
operations, which agree with the rational model on finite floats).
Machine integers are modelled as `ℤ`/`ℕ` with explicit wrapping where a
cast occurs in the source.
-/

/-! ## Fill rule and winding state -/

/-! ## Geometry output and spans -/

/-! ## Event traversal -/

/-! ## Traversal builder -/

/-! ## Sweep-line engine -/

/-! ## Degenerate paths, state reuse, determinism -/

/-! Path predicates over the event array's link fields. -/

set_option autoImplicit false

namespace Lyon

/-- A 2D point, source type `Point` (pair of coordinates, compared exactly). -/
@[ext]
structure Point where
  x : ℚ
  y : ℚ
deriving DecidableEq, Repr

/-- Constructor mirroring the source's `point(x, y)`. -/
def point (x y : ℚ) : Point := ⟨x, y⟩

/-- Source `fn is_after(a: Point, b: Point) -> bool`:
`a.y > b.y || (a.y == b.y && a.x > b.x)`. -/
def is_after (a b : Point) : Prop :=
  a.y > b.y ∨ (a.y = b.y ∧ a.x > b.x)

instance (a b : Point) : Decidable (is_after a b) := by
  unfold is_after; infer_instance

/-- Source `fn compare_positions(a: Point, b: Point) -> Ordering`. -/
def compare_positions (a b : Point) : Ordering :=
  if a.y > b.y then .gt
  else if a.y < b.y then .lt
  else if a.x > b.x then .gt
  else if a.x < b.x then .lt
  else .eq

/-- Source `enum Transition { In, Out, None }`. -/
inductive Transition where
  | In
  | Out
  | None
deriving DecidableEq, Repr

/-- Source `struct WindingState`. `span_index` is an `i32` in the source,
`number` an `i16`; both are modelled as unbounded integers. -/
structure WindingState where
  span_index : ℤ
  number : ℤ
  transition : Transition
deriving DecidableEq, Repr

/-- Source `enum FillRule { EvenOdd, NonZero }`. -/
inductive FillRule where
  | EvenOdd
  | NonZero
deriving DecidableEq, Repr

/-- Source `FillRule::is_in`: `EvenOdd` tests `winding_number % 2 != 0`
(Rust `%` truncates toward zero, i.e. `Int.tmod`), `NonZero` tests
`winding_number != 0`. -/
def FillRule.is_in (r : FillRule) (winding_number : ℤ) : Prop :=
  match r with
  | .EvenOdd => winding_number.tmod 2 ≠ 0
  | .NonZero => winding_number ≠ 0

instance (r : FillRule) (n : ℤ) : Decidable (r.is_in n) := by
  cases r <;> simp [FillRule.is_in] <;> infer_instance

/-- Source `FillRule::transition`: matches on the pair
`(is_in prev, is_in new)`. -/
def FillRule.transition (r : FillRule) (prev_winding new_winding : ℤ) : Transition :=
  if ¬ r.is_in prev_winding ∧ r.is_in new_winding then .In
  else if r.is_in prev_winding ∧ ¬ r.is_in new_winding then .Out
  else .None

/-- Source `FillRule::update_winding`: adds the edge winding to the running
number, recomputes the transition, and bumps `span_index` on `In`. -/
def FillRule.update_winding (r : FillRule) (winding : WindingState) (edge_winding : ℤ) :
    WindingState :=
  let prev_winding_number := winding.number
  let number := winding.number + edge_winding
  let transition := r.transition prev_winding_number number
  { span_index := if transition = .In then winding.span_index + 1 else winding.span_index
    number := number
    transition := transition }

/-- Source `Side` (from the crate root): tags a vertex as belonging to the
left or right boundary of a monotone span. -/
inductive Side where
  | Left
  | Right
deriving DecidableEq, Repr

/-- Vertex ids are indices into the caller's geometry builder (`u32` in the
source); the source reserves `VertexId::INVALID = u32::MAX` as a sentinel. -/
abbrev VertexId := ℕ

/-- The source's `VertexId::INVALID` sentinel (`u32::MAX`). -/
def INVALID_ID : VertexId := 4294967295

/-- One operation recorded by a monotone tessellator. -/
inductive MTEvent where
  | beginAt (position : Point) (vertex : VertexId)
  | vertexAt (position : Point) (vertex : VertexId) (side : Side)
  | endAt (position : Point) (vertex : VertexId)
deriving DecidableEq, Repr

/-- Modelled from the spec: the monotone tessellator (an external
collaborator, `path_fill::MonotoneTessellator`, not part of this source
file) receives `begin(position, vertex)`, `vertex(position, vertex, side)`
and `end(position, vertex)` calls and on `flush` converts the accumulated
monotone polygon into triangles on the geometry builder.  We model it as
the recorded operation stream; `flush` deterministically hands that stream
to the output. -/
structure MonotoneTessellator where
  ops : List MTEvent
deriving DecidableEq, Repr

/-- Modelled from the spec: the geometry builder capability
(`GeometryBuilder<Vertex>`): `begin_geometry`/`end_geometry` bracket a run,
`add_vertex` appends a vertex and returns its id, and the monotone
tessellators emit triangles (modelled as the flushed polygon streams). -/
structure GeometryOutput where
  begin_count : ℕ
  end_count : ℕ
  vertices : List Point
  triangles : List (List MTEvent)
deriving DecidableEq, Repr

/-- Modelled from the spec: a fresh geometry builder with no recorded calls. -/
def GeometryOutput.empty : GeometryOutput := ⟨0, 0, [], []⟩

/-- Modelled from the spec: `begin_geometry`. -/
def GeometryOutput.begin_geometry (o : GeometryOutput) : GeometryOutput :=
  { o with begin_count := o.begin_count + 1 }

/-- Modelled from the spec: `end_geometry`. -/
def GeometryOutput.end_geometry (o : GeometryOutput) : GeometryOutput :=
  { o with end_count := o.end_count + 1 }

/-- Modelled from the spec: `add_vertex` appends the vertex and returns its
id (the index it was stored at). -/
def GeometryOutput.add_vertex (o : GeometryOutput) (p : Point) :
    GeometryOutput × VertexId :=
  ({ o with vertices := o.vertices ++ [p] }, o.vertices.length)

/-- Modelled from the spec: `MonotoneTessellator::new()`. -/
def MonotoneTessellator.new : MonotoneTessellator := ⟨[]⟩

/-- Modelled from the spec: `MonotoneTessellator::begin`. -/
def MonotoneTessellator.beginTess (t : MonotoneTessellator) (position : Point)
    (vertex : VertexId) : MonotoneTessellator :=
  ⟨t.ops ++ [.beginAt position vertex]⟩

/-- Modelled from the spec: `MonotoneTessellator::vertex`. -/
def MonotoneTessellator.vertexTess (t : MonotoneTessellator) (position : Point)
    (vertex : VertexId) (side : Side) : MonotoneTessellator :=
  ⟨t.ops ++ [.vertexAt position vertex side]⟩

/-- Modelled from the spec: `MonotoneTessellator::end`. -/
def MonotoneTessellator.endTess (t : MonotoneTessellator) (position : Point)
    (vertex : VertexId) : MonotoneTessellator :=
  ⟨t.ops ++ [.endAt position vertex]⟩

/-- Modelled from the spec: `MonotoneTessellator::flush_experimental` hands
the accumulated monotone polygon to the geometry builder as triangles. -/
def MonotoneTessellator.flush (t : MonotoneTessellator) (o : GeometryOutput) :
    GeometryOutput :=
  { o with triangles := o.triangles ++ [t.ops] }

/-- Source `struct Span`. -/
structure Span where
  tess : MonotoneTessellator
  remove : Bool
deriving DecidableEq, Repr

/-- Source `struct Spans`. -/
structure Spans where
  spans : List Span
deriving DecidableEq, Repr

/-- Rust's `as usize` cast applied to an `i32` value (sign-extension then
reinterpretation, i.e. reduction modulo `2^64`). -/
def usize_of_i32 (z : ℤ) : ℕ := (z % (2 : ℤ) ^ 64).toNat

/-- Source `Spans::begin_span`: inserts a new span at `span_idx` whose
tessellator starts at the given position/vertex. -/
def Spans.begin_span (s : Spans) (span_idx : ℤ) (position : Point)
    (vertex : VertexId) : Spans :=
  let idx := usize_of_i32 span_idx
  ⟨s.spans.insertIdx idx ⟨MonotoneTessellator.new.beginTess position vertex, false⟩⟩

/-- Source `Spans::end_span`: marks the span for removal, feeds the final
vertex to its tessellator and flushes it to the output.  (Indexing out of
bounds panics in the source; the model leaves the state unchanged there,
and all verified uses are in bounds.) -/
def Spans.end_span (s : Spans) (span_idx : ℤ) (position : Point)
    (id : VertexId) (output : GeometryOutput) : Spans × GeometryOutput :=
  let idx := usize_of_i32 span_idx
  match s.spans.get? idx with
  | none => (s, output)
  | some span =>
      let tess := span.tess.endTess position id
      (⟨s.spans.set idx ⟨tess, true⟩⟩, tess.flush output)

/-- Source `Spans::split_span`: inserts a new span to the left and feeds the
split vertex to both sides. -/
def Spans.split_span (s : Spans) (span_idx : ℤ) (split_position : Point)
    (split_id : VertexId) (a_position : Point) (a_id : VertexId) : Spans :=
  let idx := usize_of_i32 span_idx
  let inserted := s.spans.insertIdx idx ⟨MonotoneTessellator.new.beginTess a_position a_id, false⟩
  let step1 := inserted.modify
    (fun sp => ⟨sp.tess.vertexTess split_position split_id Side.Right, sp.remove⟩) idx
  ⟨step1.modify
    (fun sp => ⟨sp.tess.vertexTess split_position split_id Side.Left, sp.remove⟩) (idx + 1)⟩

/-- Source `Spans::merge_spans`: feeds the merge vertex to the two spans
meeting at it and ends the left one — except when `span_idx + 1` is not a
valid span index, in which case it returns without doing anything. -/
def Spans.merge_spans (s : Spans) (span_idx : ℤ) (current_position : Point)
    (current_vertex : VertexId) (merge_position : Point)
    (merge_vertex : VertexId) (output : GeometryOutput) : Spans × GeometryOutput :=
  let idx := usize_of_i32 span_idx
  if s.spans.length ≤ idx + 1 then
    (s, output)
  else
    let step1 := s.spans.modify
      (fun sp => ⟨sp.tess.vertexTess merge_position merge_vertex Side.Right, sp.remove⟩) idx
    let step2 := step1.modify
      (fun sp => ⟨sp.tess.vertexTess merge_position merge_vertex Side.Left, sp.remove⟩) (idx + 1)
    Spans.end_span ⟨step2⟩ span_idx current_position current_vertex output

/-- Source `Spans::cleanup_spans`: drops the spans marked for removal. -/
def Spans.cleanup_spans (s : Spans) : Spans :=
  ⟨s.spans.filter (fun span => ¬ span.remove)⟩

/-- The `usize::MAX` sentinel used for terminal sibling links. -/
def usizeMax : ℕ := 18446744073709551615

/-- Source `struct TraversalEvent`. -/
structure TraversalEvent where
  next_sibling : ℕ
  next_event : ℕ
  position : Point
deriving DecidableEq, Repr

/-- Source `struct Traversal`. -/
structure Traversal where
  events : List TraversalEvent
  first : ℕ
  sorted : Bool
deriving DecidableEq, Repr

/-- Default used for out-of-bounds event reads (the source panics there;
no verified execution reads out of bounds). -/
def defaultEvent : TraversalEvent := ⟨usizeMax, usizeMax, point 0 0⟩

/-- Read of `self.events[i]`. -/
def evGet (ev : List TraversalEvent) (i : ℕ) : TraversalEvent :=
  ev.getD i defaultEvent

/-- Write of `self.events[i].next_event = v`. -/
def setNextEvent (ev : List TraversalEvent) (i v : ℕ) : List TraversalEvent :=
  ev.modify (fun e => { e with next_event := v }) i

/-- Write of `self.events[i].next_sibling = v`. -/
def setNextSibling (ev : List TraversalEvent) (i v : ℕ) : List TraversalEvent :=
  ev.modify (fun e => { e with next_sibling := v }) i

/-- Source `Traversal::new`. -/
def Traversal.new : Traversal := ⟨[], 0, false⟩

/-- Source `Traversal::push`: appends an event whose next-event link points
one past the end and whose sibling link is the sentinel. -/
def Traversal.push (t : Traversal) (position : Point) : Traversal :=
  { t with
    events := t.events ++ [⟨usizeMax, t.events.length + 1, position⟩]
    sorted := false }

/-- Source `Traversal::clear`. -/
def Traversal.clear (_t : Traversal) : Traversal := ⟨[], 0, false⟩

/-- Source `Traversal::first_id`. -/
def Traversal.first_id (t : Traversal) : ℕ := t.first

/-- Source `Traversal::next_id`. -/
def Traversal.next_id (t : Traversal) (id : ℕ) : ℕ := (evGet t.events id).next_event

/-- Source `Traversal::next_sibling_id`. -/
def Traversal.next_sibling_id (t : Traversal) (id : ℕ) : ℕ :=
  (evGet t.events id).next_sibling

/-- Source `Traversal::valid_id`. -/
def Traversal.valid_id (t : Traversal) (id : ℕ) : Prop := id < t.events.length

instance (t : Traversal) (id : ℕ) : Decidable (t.valid_id id) := by
  unfold Traversal.valid_id; infer_instance

/-- Source `Traversal::position`. -/
def Traversal.position (t : Traversal) (id : ℕ) : Point := (evGet t.events id).position

/-- The mutable state of the loop inside `Traversal::sort`. -/
structure SortState where
  events : List TraversalEvent
  first : ℕ
  current : ℕ
  prev : ℕ
  last : ℕ
  swapped : Bool
deriving DecidableEq, Repr

/-- The trailing node of the sibling chain starting at `i` (the inner
`while` of the `Ordering::Equal` arm), with explicit fuel. -/
def sibLast (ev : List TraversalEvent) : ℕ → ℕ → ℕ
  | 0, i => i
  | fuel + 1, i =>
      let ns := (evGet ev i).next_sibling
      if ns < ev.length then sibLast ev fuel ns else i

/-- The comparison part of one iteration of the sort loop: compares
`current` against its successor and applies the `Less`/`Greater`/`Equal`
arm of the `match`. -/
def compareStep (st : SortState) : SortState :=
  let next := (evGet st.events st.current).next_event
  let a := (evGet st.events st.current).position
  let b := (evGet st.events next).position
  match compare_positions a b with
  | .lt =>
      { st with prev := st.current, current := next }
  | .gt =>
      let ev1 := if st.prev ≠ st.current ∧ st.prev ≠ next
        then setNextEvent st.events st.prev next else st.events
      let first1 := if st.current = st.first then next else st.first
      let last1 := if next = st.last then st.current else st.last
      let next_next := (evGet ev1 next).next_event
      let ev2 := setNextEvent ev1 st.current next_next
      let ev3 := setNextEvent ev2 next st.current
      { st with events := ev3, first := first1, last := last1,
                swapped := true, prev := next }
  | .eq =>
      let next_next := (evGet st.events next).next_event
      let ev1 := setNextEvent st.events st.current next_next
      let tail := sibLast ev1 ev1.length st.current
      let ev2 := setNextSibling ev1 tail next
      { st with events := ev2 }

/-- One full iteration of the sort loop: the rewind check (which may
return), then the comparison step. -/
def sortStep (st : SortState) : SortState ⊕ SortState :=
  if st.current = st.last ∨ ¬ st.current < st.events.length ∨
      ¬ (evGet st.events st.current).next_event < st.events.length then
    let st1 := { st with last := st.prev, prev := st.first, current := st.first }
    if st.swapped = false ∨ st1.last = st1.first then
      Sum.inr st1
    else
      Sum.inl (compareStep { st1 with swapped := false })
  else
    Sum.inl (compareStep st)

/-- Runs the sort loop with explicit fuel; `none` means the fuel ran out
(shown below never to happen within `sortFuel`). -/
def sortRun : ℕ → SortState → Option SortState
  | 0, _ => none
  | fuel + 1, st =>
      match sortStep st with
      | Sum.inr fin => some fin
      | Sum.inl st1 => sortRun fuel st1

/-- Fuel sufficient for the sort loop (established by the termination
theorem): quadratic in the number of events. -/
def sortFuel (n : ℕ) : ℕ := 2 * (n + 2) * (n + 2)

/-- Source `Traversal::sort` (the early-out on `sorted`, the small-input
early-out, and the bubble-sort loop with sibling grouping). -/
def Traversal.sort (t : Traversal) : Traversal :=
  if t.sorted then t
  else
    let t1 : Traversal := { t with sorted := true }
    if t1.events.length ≤ 1 then t1
    else
      match sortRun (sortFuel t1.events.length)
          ⟨t1.events, t1.first, 0, 0, t1.events.length - 1, false⟩ with
      | some st => { t1 with events := st.events, first := st.first }
      | none => t1

/-- Source `struct EdgeData` (`from` and `to` are reserved words in Lean,
hence the `from_id`/`to_v` field names). -/
structure EdgeData where
  from_id : VertexId
  ctrl : VertexId
  to_v : VertexId
  winding : ℤ
deriving DecidableEq, Repr

/-- Source `struct TraversalBuilder`.  The source initialises the point
fields to NaN; the rational model uses `point 0 0`, and no verified path
reads them before they are overwritten by `move_to`. -/
structure TraversalBuilder where
  current : Point
  current_id : VertexId
  first : Point
  first_id : VertexId
  prev : Point
  second : Point
  nth : ℕ
  tx : Traversal
  edge_data : List EdgeData
deriving DecidableEq, Repr

/-- Source `TraversalBuilder::with_capacity` (capacity is irrelevant to the
model). -/
def TraversalBuilder.new : TraversalBuilder :=
  ⟨point 0 0, INVALID_ID, point 0 0, INVALID_ID, point 0 0, point 0 0, 0,
    Traversal.new, []⟩

/-- Source `TraversalBuilder::vertex_event`: a synthetic event whose edge
data is entirely `INVALID` with winding 0. -/
def TraversalBuilder.vertex_event (b : TraversalBuilder) (at_pos : Point) :
    TraversalBuilder :=
  { b with
    tx := b.tx.push at_pos
    edge_data := b.edge_data ++ [⟨INVALID_ID, INVALID_ID, INVALID_ID, 0⟩] }

/-- Source `TraversalBuilder::quad_to` (also used for line segments with an
`INVALID` control id): drops degenerate segments, pushes one event at the
upper endpoint with winding ±1, and fires a vertex event at `from` when
`from` is after both `to` and `prev`. -/
def TraversalBuilder.quad_to (b : TraversalBuilder) (toPt : Point)
    (ctrl_id to_id : VertexId) : TraversalBuilder :=
  if b.current = toPt then b
  else
    let next_id := to_id
    let b1 := if is_after b.current toPt ∧ 0 < b.nth ∧ is_after b.current b.prev
      then b.vertex_event b.current else b
    let fromP := if is_after b.current toPt then toPt else b.current
    let fromId := if is_after b.current toPt then to_id else b.current_id
    let toId := if is_after b.current toPt then b.current_id else to_id
    let winding : ℤ := if is_after b.current toPt then -1 else 1
    { b1 with
      tx := b1.tx.push fromP
      edge_data := b1.edge_data ++ [⟨fromId, ctrl_id, toId, winding⟩]
      second := if b.nth = 0 then toPt else b1.second
      nth := b.nth + 1
      prev := b.current
      current := toPt
      current_id := next_id }

/-- Source `TraversalBuilder::line_to`. -/
def TraversalBuilder.line_to (b : TraversalBuilder) (toPt : Point)
    (to_id : VertexId) : TraversalBuilder :=
  b.quad_to toPt INVALID_ID to_id

/-- Source `TraversalBuilder::close`: inserts the closing edge if needed and
fires the deferred vertex event for the first point. -/
def TraversalBuilder.close (b : TraversalBuilder) : TraversalBuilder :=
  if b.nth = 0 then b
  else
    let first := b.first
    let b1 := if b.current ≠ b.first then b.line_to first b.first_id else b
    let b2 := if is_after b1.first b1.prev ∧ is_after b1.first b1.second
      then b1.vertex_event first else b1
    { b2 with nth := 0 }

/-- Source `TraversalBuilder::move_to`: closes any open sub-path and resets
the running points. -/
def TraversalBuilder.move_to (b : TraversalBuilder) (toPt : Point)
    (to_id : VertexId) : TraversalBuilder :=
  let b1 := if 0 < b.nth then b.close else b
  { b1 with
    nth := 0
    first := toPt
    current := toPt
    first_id := to_id
    current_id := to_id }

/-- One path event together with the vertex ids the source's path cursor
supplies for it (`cursor.vertex`, and `cursor.vertex + 1` for a quadratic
control point). -/
inductive PEvent where
  | moveTo (toPt : Point) (to_id : VertexId)
  | lineTo (toPt : Point) (to_id : VertexId)
  | quadTo (toPt : Point) (ctrl_id to_id : VertexId)
  | closeEv
deriving DecidableEq, Repr

/-- Dispatch of one path event in `TraversalBuilder::set_path`. -/
def TraversalBuilder.step (b : TraversalBuilder) (e : PEvent) : TraversalBuilder :=
  match e with
  | .moveTo toPt to_id => b.move_to toPt to_id
  | .lineTo toPt to_id => b.line_to toPt to_id
  | .quadTo toPt ctrl_id to_id => b.quad_to toPt ctrl_id to_id
  | .closeEv => b.close

/-- Source `TraversalBuilder::set_path`: walks the path events and closes at
the end; an empty path is a no-op. -/
def TraversalBuilder.set_path (b : TraversalBuilder) (path : List PEvent) :
    TraversalBuilder :=
  match path with
  | [] => b
  | _ => (path.foldl TraversalBuilder.step b).close

/-- Source `TraversalBuilder::build`: closes, sorts, and hands back the
event set and the edge data. -/
def TraversalBuilder.build (b : TraversalBuilder) : Traversal × List EdgeData :=
  let b1 := b.close
  (b1.tx.sort, b1.edge_data)

/-- The all-`INVALID`, winding-0 edge data attached to a synthetic
vertex-only event. -/
def vertexEdgeData : EdgeData := ⟨INVALID_ID, INVALID_ID, INVALID_ID, 0⟩

/-- Placeholder for the source's `point(f32::NAN, f32::NAN)` control-point
sentinel.  The sentinel is stored but never inspected by any code path the
claims cover, so the model uses an arbitrary fixed point. -/
def nanPoint : Point := point 0 0

/-- The exact value of `f32::MIN`, used by `FillTessellator::new` for the
initial `current_position`. -/
def f32Min : ℚ := -((2 : ℚ) ^ 128 - (2 : ℚ) ^ 104)

/-- Componentwise difference `a - b` of two points (the source's
`to - self.current_position` vector). -/
def Point.sub (a b : Point) : Point := ⟨a.x - b.x, a.y - b.y⟩

/-- Modelled from the spec: the pending-edge sort key is the angle of the
vector from the current position to the edge's lower endpoint, measured
from the +x axis (`atan2`, external `geom` crate).  The model replaces the
transcendental angle by an order-equivalent computable pseudo-angle
(monotone in the true angle on each input), which preserves every
comparison the sort performs. -/
def pseudo_angle (v : Point) : ℚ :=
  let d := |v.x| + |v.y|
  if d = 0 then 0
  else if 0 ≤ v.y then 1 - v.x / d
  else v.x / d - 1

/-- Source `struct ActiveEdge` (`from`/`to` renamed to `from_pt`/`to_pt`). -/
structure ActiveEdge where
  from_pt : Point
  to_pt : Point
  ctrl_pt : Point
  winding : ℤ
  is_merge : Bool
  from_id : VertexId
  ctrl_id : VertexId
  to_id : VertexId
deriving DecidableEq, Repr

/-- Source `struct ActiveEdges`. -/
structure ActiveEdges where
  edges : List ActiveEdge
deriving DecidableEq, Repr

/-- Source `struct PendingEdge`. -/
structure PendingEdge where
  to_pt : Point
  ctrl_pt : Point
  angle : ℚ
  from_id : VertexId
  ctrl_id : VertexId
  to_id : VertexId
  winding : ℤ
deriving DecidableEq, Repr

/-- Default used for out-of-bounds active-edge reads (the source would
panic; no verified execution reads out of bounds). -/
def defaultActiveEdge : ActiveEdge :=
  ⟨nanPoint, nanPoint, nanPoint, 0, false, INVALID_ID, INVALID_ID, INVALID_ID⟩

/-- Default used for out-of-bounds pending-edge reads. -/
def defaultPendingEdge : PendingEdge :=
  ⟨nanPoint, nanPoint, 0, INVALID_ID, INVALID_ID, INVALID_ID, 0⟩

/-- The fill options consumed by the core (`FillOptions::fill_rule`; the
remaining options are consumed upstream). -/
structure FillOptions where
  fill_rule : FillRule
deriving DecidableEq, Repr

/-- Source `struct FillTessellator`.  `log` mirrors the logging toggle
(initialised from the `LYON_FORCE_LOGGING` environment variable); it only
gates `println!` logging in the source and is carried but never read by
the model's geometry computation. -/
structure FillTessellator where
  current_position : Point
  active : ActiveEdges
  edges_below : List PendingEdge
  fill_rule : FillRule
  fill : Spans
  log : Bool
deriving DecidableEq, Repr

/-- Source `FillTessellator::new`; `log` is whether `LYON_FORCE_LOGGING`
is set in the environment. -/
def FillTessellator.new (log : Bool) : FillTessellator :=
  ⟨point f32Min f32Min, ⟨[]⟩, [], .EvenOdd, ⟨[]⟩, log⟩

/-- Modelled from the spec: `LineSegment::solve_x_for_y` (external `geom`
crate) solves the straight line from `from_pt` to `to_pt` for x at the
given y.  Horizontal segments produce NaN in the f32 source; the rational
model yields `from_pt.x` there (division by zero is zero); no verified
claim depends on that case. -/
def ActiveEdge.solve_x_for_y (e : ActiveEdge) (y : ℚ) : ℚ :=
  e.from_pt.x + (e.to_pt.x - e.from_pt.x) * (y - e.from_pt.y) / (e.to_pt.y - e.from_pt.y)

/-- Source `fn points_are_equal` (exact comparison; the tolerance TODO in
the source is not implemented there either). -/
def points_are_equal (a b : Point) : Prop := a = b

instance (a b : Point) : Decidable (points_are_equal a b) := by
  unfold points_are_equal; infer_instance

/-- The accumulator of the first loop of `process_events` (the scan over
the active edges): all the `let mut` locals of that loop plus the active
edge list it mutates. -/
structure ScanAcc where
  edges : List ActiveEdge
  winding : WindingState
  winding_before_point : Option WindingState
  above_start : ℕ
  above_end : ℕ
  connecting_edges : Bool
  first_transition_above : Bool
  pending_merge : Option ℕ
  pending_right : Option ℕ
  prev_transition_in : Option ℕ
  merges_to_resolve : List (ℤ × ℕ)
  spans_to_end : List ℤ
  edges_to_split : List ℕ
deriving Repr

/-- The scan over active edges in `process_events` (source lines 385–487),
with explicit fuel (one unit per edge; callers pass the edge count). -/
def scanActive (fr : FillRule) (cp : Point) (cv : VertexId)
    (below_empty : Bool) (spans_len : ℕ) : ℕ → ℕ → ScanAcc → ScanAcc
  | 0, _, acc => acc
  | fuel + 1, i, acc =>
    if acc.edges.length ≤ i then acc
    else
      let e := acc.edges.getD i defaultActiveEdge
      if e.is_merge then
        if acc.connecting_edges then
          scanActive fr cp cv below_empty spans_len fuel (i + 1)
            { acc with
              merges_to_resolve := acc.merges_to_resolve ++ [(acc.winding.span_index, i)]
              edges := acc.edges.set i { e with to_pt := cp, to_id := cv }
              winding := { acc.winding with span_index := acc.winding.span_index + 1 } }
        else
          scanActive fr cp cv below_empty spans_len fuel (i + 1)
            { acc with winding := { acc.winding with span_index := acc.winding.span_index + 1 } }
      else
        let connectBranch : ScanAcc × Bool :=
          if points_are_equal cp e.to_pt then ({ acc with connecting_edges := true }, false)
          else
            let ex := e.solve_x_for_y cp.y
            let acc1 := if ex = cp.x then
              { acc with edges_to_split := acc.edges_to_split ++ [i], connecting_edges := true }
              else acc
            if ex > cp.x then ({ acc1 with above_end := i }, true) else (acc1, false)
        let acc1 := connectBranch.1
        if connectBranch.2 then acc1
        else
          let acc2 := if ¬ acc.connecting_edges ∧ acc1.connecting_edges then
            { acc1 with winding_before_point := some acc1.winding, above_start := i }
            else acc1
          let acc3 := { acc2 with winding := fr.update_winding acc2.winding e.winding }
          if ¬ acc3.connecting_edges then
            scanActive fr cp cv below_empty spans_len fuel (i + 1) acc3
          else
            let acc4 :=
              match acc3.winding.transition, acc3.first_transition_above with
              | .In, _ => { acc3 with prev_transition_in := some i }
              | .Out, true =>
                  if below_empty then { acc3 with pending_merge := some i }
                  else { acc3 with pending_right := some i }
              | .Out, false =>
                  if acc3.winding.span_index < (spans_len : ℤ) then
                    { acc3 with
                      spans_to_end := acc3.spans_to_end ++ [acc3.winding.span_index]
                      winding := { acc3.winding with span_index := acc3.winding.span_index + 1 } }
                  else acc3
              | .None, _ => acc3
            let acc5 := if acc3.winding.transition ≠ .None then
              { acc4 with first_transition_above := false } else acc4
            scanActive fr cp cv below_empty spans_len fuel (i + 1) acc5

/-- Feeds one vertex to the tessellator of the span at `idx` (source
`self.fill.spans[idx].tess.vertex(..)`; out-of-bounds panics in the
source and is a no-op in the model). -/
def Spans.vertex_at (sp : Spans) (idx : ℕ) (p : Point) (v : VertexId) (side : Side) : Spans :=
  ⟨sp.spans.modify (fun s => ⟨s.tess.vertexTess p v side, s.remove⟩) idx⟩

/-- Source `FillTessellator::sort_edges_below`: stable sort by descending
angle. -/
def sort_edges_below (below : List PendingEdge) : List PendingEdge :=
  below.mergeSort (fun a b => decide (b.angle ≤ a.angle))

/-- The loop over the pending edges below the current position (source
lines 659–734): emits right/left/start events.  State:
(winding, spans, pending_right, prev_transition_in). -/
def belowLoop (fr : FillRule) (cp : Point) (cv : VertexId)
    (below : List PendingEdge) (full_len : ℕ) (below_end : ℕ) :
    ℕ → ℕ → WindingState × Spans × Option ℕ × Option ℕ →
    WindingState × Spans × Option ℕ × Option ℕ
  | 0, _, st => st
  | fuel + 1, i, st =>
    if below_end ≤ i then st
    else
      let (w, fill, pr, pti) := st
      let pe := below.getD i defaultPendingEdge
      let w1 := fr.update_winding w pe.winding
      match pr with
      | some _ =>
          belowLoop fr cp cv below full_len below_end fuel (i + 1)
            (w1, fill.vertex_at (usize_of_i32 w1.span_index) cp cv Side.Right, none, pti)
      | none =>
          match w1.transition with
          | .In =>
              if i = full_len - 1 then
                belowLoop fr cp cv below full_len below_end fuel (i + 1)
                  (w1, fill.vertex_at (usize_of_i32 w1.span_index) cp cv Side.Left, none, pti)
              else
                belowLoop fr cp cv below full_len below_end fuel (i + 1) (w1, fill, none, some i)
          | .Out =>
              match pti with
              | some _ =>
                  belowLoop fr cp cv below full_len below_end fuel (i + 1)
                    (w1, fill.begin_span w1.span_index cp cv, none, pti)
              | none =>
                  belowLoop fr cp cv below full_len below_end fuel (i + 1) (w1, fill, none, pti)
          | .None =>
              belowLoop fr cp cv below full_len below_end fuel (i + 1) (w1, fill, none, pti)

/-- The removal loop of `update_active_edges`: removes `count` non-merge
edges starting at `rm_index`, stepping over merge placeholders. -/
def removeAboveLoop : ℕ → ℕ → List ActiveEdge → List ActiveEdge
  | 0, _, edges => edges
  | count + 1, rm_index, edges =>
      if (edges.getD rm_index defaultActiveEdge).is_merge then
        removeAboveLoop count (rm_index + 1) edges
      else
        removeAboveLoop count rm_index (edges.eraseIdx rm_index)

/-- The insertion loop of `update_active_edges`: drains the pending edges
into the active list starting at the insertion index. -/
def insertBelowLoop (cp : Point) : List PendingEdge → ℕ → List ActiveEdge → List ActiveEdge
  | [], _, edges => edges
  | pe :: rest, idx, edges =>
      insertBelowLoop cp rest (idx + 1)
        (edges.insertIdx idx
          ⟨cp, pe.to_pt, pe.ctrl_pt, pe.winding, false, pe.from_id, pe.ctrl_id, pe.to_id⟩)

/-- Source `FillTessellator::process_events`: the scan over active edges,
merge resolution, span ending and cleanup, edge-on-vertex splits, the
pending merge conversion, split detection, the pending-edge loop and the
active-edge update.  (The source's `prev_transition_in.unwrap()` in the
end-event arm only feeds logging and is dropped; span indexing panics
out of bounds in the source and is a no-op in the model.) -/
def processEvents (s : FillTessellator) (current_vertex : VertexId)
    (output : GeometryOutput) : FillTessellator × GeometryOutput :=
  let cp := s.current_position
  let nEdges := s.active.edges.length
  let init : ScanAcc :=
    ⟨s.active.edges, ⟨-1, 0, .None⟩, none, nEdges, nEdges,
      false, true, none, none, none, [], [], []⟩
  let acc := scanActive s.fill_rule cp current_vertex s.edges_below.isEmpty
    s.fill.spans.length nEdges 0 init
  let merged := acc.merges_to_resolve.foldl
    (fun (st : List ActiveEdge × Spans × GeometryOutput) pr =>
      let ae := st.1.getD pr.2 defaultActiveEdge
      let r := st.2.1.merge_spans pr.1 cp current_vertex ae.from_pt ae.from_id st.2.2
      (st.1.set pr.2 { ae with is_merge := false }, r.1, r.2))
    (acc.edges, s.fill, output)
  let ended := acc.spans_to_end.foldl
    (fun (st : Spans × GeometryOutput) span_index =>
      Spans.end_span st.1 span_index cp current_vertex st.2) (merged.2.1, merged.2.2)
  let fill3 := ended.1.cleanup_spans
  let split := acc.edges_to_split.foldl
    (fun (st : List ActiveEdge × List PendingEdge) edge_idx =>
      let ae := st.1.getD edge_idx defaultActiveEdge
      let pe : PendingEdge :=
        ⟨ae.to_pt, nanPoint, pseudo_angle (Point.sub ae.to_pt cp),
          current_vertex, INVALID_ID, ae.to_id, ae.winding⟩
      (st.1.set edge_idx { ae with to_pt := cp, to_id := current_vertex },
        st.2 ++ [pe]))
    (merged.1, s.edges_below)
  let above_start := min acc.above_start acc.above_end
  let above_end := acc.above_end
  let winding := acc.winding_before_point.getD acc.winding
  let below2 := sort_edges_below split.2
  let edges3 :=
    match acc.pending_merge with
    | none => split.1
    | some in_idx =>
        split.1.modify
          (fun e => { e with
            is_merge := true
            from_pt := e.to_pt
            ctrl_pt := e.to_pt
            winding := 0
            from_id := current_vertex
            ctrl_id := INVALID_ID
            to_id := INVALID_ID }) in_idx
  let splitCase :=
    if s.fill_rule.is_in winding.number ∧ above_start = above_end ∧ 2 ≤ below2.length then
      let edge_above := above_start - 1
      let upper := edges3.getD edge_above defaultActiveEdge
      if upper.is_merge then
        let span_index := usize_of_i32 winding.span_index
        let fill4 := ((((fill3.vertex_at (span_index - 1) upper.from_pt upper.from_id Side.Right
          ).vertex_at (span_index - 1) cp current_vertex Side.Right
          ).vertex_at span_index upper.from_pt upper.from_id Side.Left
          ).vertex_at span_index cp current_vertex Side.Left)
        (fill4, edges3.eraseIdx edge_above, above_start - 1, above_end - 1,
          { winding with span_index := winding.span_index + 1 }, 1, below2.length - 1)
      else
        let fill4 := fill3.split_span winding.span_index cp current_vertex
          upper.from_pt upper.from_id
        (fill4, edges3, above_start, above_end,
          { winding with span_index := winding.span_index + 1 }, 1, below2.length - 1)
    else
      (fill3, edges3, above_start, above_end, winding, 0, below2.length)
  let fill4 := splitCase.1
  let edges4 := splitCase.2.1
  let above_start2 := splitCase.2.2.1
  let above_end2 := splitCase.2.2.2.1
  let winding2 := splitCase.2.2.2.2.1
  let below_start := splitCase.2.2.2.2.2.1
  let below_end := splitCase.2.2.2.2.2.2
  let ran := belowLoop s.fill_rule cp current_vertex below2 below2.length below_end
    below2.length below_start (winding2, fill4, acc.pending_right, none)
  let fill5 := ran.2.1
  let edges5 := removeAboveLoop (above_end2 - above_start2) above_start2 edges4
  let edges6 := insertBelowLoop cp below2 above_start2 edges5
  ({ s with active := ⟨edges6⟩, edges_below := [], fill := fill5 }, ended.2)

/-- Gathers the pending edges below the current position from the sibling
chain of the current event (the inner loop of `tessellator_loop`).
Vertex-only events (`to == INVALID`) are skipped. -/
def gatherSiblings (events : Traversal) (edge_data : List EdgeData)
    (path_verts : List Point) (cp : Point) (vertex_id : VertexId) :
    ℕ → ℕ → List PendingEdge → List PendingEdge
  | 0, _, acc => acc
  | fuel + 1, cs, acc =>
      if cs < events.events.length then
        let edge := edge_data.getD cs vertexEdgeData
        if edge.to_v = INVALID_ID then
          gatherSiblings events edge_data path_verts cp vertex_id fuel
            (events.next_sibling_id cs) acc
        else
          let toP := path_verts.getD edge.to_v nanPoint
          let ctrlP := if edge.ctrl ≠ INVALID_ID then path_verts.getD edge.ctrl nanPoint
            else nanPoint
          let pe : PendingEdge :=
            ⟨toP, ctrlP, pseudo_angle (Point.sub toP cp), vertex_id, INVALID_ID,
              INVALID_ID, edge.winding⟩
          gatherSiblings events edge_data path_verts cp vertex_id fuel
            (events.next_sibling_id cs) (acc ++ [pe])
      else acc

/-- Source `FillTessellator::tessellator_loop`, with fuel (the sorted event
chain has at most one step per event; callers pass `events.length + 1`). -/
def tessLoop (events : Traversal) (edge_data : List EdgeData)
    (path_verts : List Point) :
    ℕ → ℕ → FillTessellator → GeometryOutput → FillTessellator × GeometryOutput
  | 0, _, s, o => (s, o)
  | fuel + 1, current_event, s, o =>
      if current_event < events.events.length then
        let cp := events.position current_event
        let s1 := { s with current_position := cp }
        let av := o.add_vertex cp
        let below := gatherSiblings events edge_data path_verts cp av.2
          (events.events.length + 1) current_event s1.edges_below
        let s2 := { s1 with edges_below := below }
        let r := processEvents s2 av.2 av.1
        tessLoop events edge_data path_verts fuel (events.next_id current_event) r.1 r.2
      else (s, o)

/-- A path handed to `tessellate_path`: its event sequence (with the
vertex ids the cursor yields) and its vertex buffer (`path[id]` lookups). -/
structure PathModel where
  events : List PEvent
  verts : List Point
deriving DecidableEq, Repr

/-- Source `FillTessellator::tessellate_path`: sets the fill rule from the
options, builds and sorts the event traversal, brackets the run with
`begin_geometry`/`end_geometry`, and runs the sweep loop. -/
def tessellate_path (s : FillTessellator) (path : PathModel)
    (options : FillOptions) (builder : GeometryOutput) :
    FillTessellator × GeometryOutput :=
  let s1 := { s with fill_rule := options.fill_rule }
  let built := (TraversalBuilder.new.set_path path.events).build
  let out1 := builder.begin_geometry
  let r := tessLoop built.1 built.2 path.verts (built.1.events.length + 1)
    built.1.first_id s1 out1
  (r.1, r.2.end_geometry)

/-- The fields of the engine state that determine the geometry output:
everything except `current_position` (rewritten at each event before use)
and `log` (which only gates logging). -/
def sameCore (s t : FillTessellator) : Prop :=
  s.active = t.active ∧ s.edges_below = t.edges_below ∧
  s.fill_rule = t.fill_rule ∧ s.fill = t.fill

/-- An engine state left dirty (as if by an aborted previous run): one
active edge, one pending edge, one open span. -/
def dirtyState : FillTessellator :=
  { FillTessellator.new false with
    active := ⟨[defaultActiveEdge]⟩
    edges_below := [defaultPendingEdge]
    fill := ⟨[⟨MonotoneTessellator.new, false⟩]⟩ }

/-- The positions of the synthetic vertex-only events recorded by a
builder: events paired (positionally) with an all-`INVALID`, winding-0
edge record. -/
def vertexEventsOf (b : TraversalBuilder) : List Point :=
  (b.tx.events.zip b.edge_data).filterMap
    (fun pr => if pr.2 = vertexEdgeData then some pr.1.position else none)

/-- The interior local maxima of a vertex chain, in order: one entry per
consecutive triple (prev, cur, next) with `cur` after both neighbours. -/
def maximaScan : Point → Point → List Point → List Point
  | _, _, [] => []
  | prev, cur, nxt :: rest =>
      (if is_after cur prev ∧ is_after cur nxt then [cur] else []) ++
        maximaScan cur nxt rest

/-- The last two elements of `a :: b :: l` (as a pair). -/
def lastTwo : Point → Point → List Point → Point × Point
  | a, b, [] => (a, b)
  | _, b, c :: rest => lastTwo b c rest

/-- The `line_to` path events for a vertex list, with sequential cursor
vertex ids starting at `k`. -/
def lineTos : ℕ → List Point → List PEvent
  | _, [] => []
  | k, p :: rest => .lineTo p k :: lineTos (k + 1) rest

/-- The path events of one closed polygonal sub-path (move-to, line-tos,
close) with sequential cursor vertex ids. -/
def polyEvents (p0 : Point) (ps : List Point) : List PEvent :=
  .moveTo p0 0 :: lineTos 1 ps ++ [.closeEv]

/-- Event/edge-record alignment invariant of a builder. -/
def edOk (b : TraversalBuilder) : Prop :=
  b.tx.events.length = b.edge_data.length

/-- Walk predicate: starting at `entry`, following the link field `f`
visits exactly the nodes of `l` (all in bounds) and then exits to `exitp`. -/
def isPathF (f : TraversalEvent → ℕ) (ev : List TraversalEvent) :
    ℕ → List ℕ → ℕ → Prop
  | entry, [], exitp => entry = exitp
  | entry, j :: rest, exitp =>
      entry = j ∧ j < ev.length ∧ isPathF f ev (f (evGet ev j)) rest exitp

/-- Next-event paths. -/
def nextPath (ev : List TraversalEvent) (a : ℕ) (l : List ℕ) (c : ℕ) : Prop :=
  isPathF (fun e => e.next_event) ev a l c

/-- Next-sibling paths. -/
def sibPath (ev : List TraversalEvent) (a : ℕ) (l : List ℕ) (c : ℕ) : Prop :=
  isPathF (fun e => e.next_sibling) ev a l c

/-- Position of event `i`. -/
def posAt (ev : List TraversalEvent) (i : ℕ) : Point := (evGet ev i).position

/-- Event `i` is strictly after event `j` in the sweep order. -/
def isAfterIdx (ev : List TraversalEvent) (i j : ℕ) : Prop :=
  is_after (posAt ev i) (posAt ev j)

/-- The events along `l` have strictly increasing positions. -/
def chainSorted (ev : List TraversalEvent) (l : List ℕ) : Prop :=
  l.Chain' (fun i j => isAfterIdx ev j i)

/-- `g` is the full sibling chain starting at `c` (terminating out of
range). -/
def sibChainOf (ev : List TraversalEvent) (c : ℕ) (g : List ℕ) : Prop :=
  ∃ e, sibPath ev c g e ∧ ¬ e < ev.length

/-- The sibling groups hanging off the chain `C`: one group per chain
node, each group position-uniform, and together a permutation of all
event ids. -/
def groupsOk (ev : List TraversalEvent) (C : List ℕ) (G : List (List ℕ)) : Prop :=
  List.Forall₂ (fun c g => sibChainOf ev c g ∧ ∀ x ∈ g, posAt ev x = posAt ev c) C G ∧
  (G.flatten).Perm (List.range ev.length)

/-- The loop invariant of `Traversal::sort`, with all the data of the
decomposition exposed: the chain is `Cpre ++ current :: Cpost`; `Cpre`
further splits as `F ++ E` where `E ++ [current]` is the ascending run
since the last swap, every element of which is strictly after all of the
wider chain prefix `F`; the whole chain also splits as `A ++ S` where the
suffix `S` is already settled: strictly sorted and strictly after
everything in `A`.  `last` is either inside `S`, gone from the chain, or
the final element of `A`. -/
structure SortInvP (st : SortState) (Cpre Cpost : List ℕ)
    (G : List (List ℕ)) (e : ℕ) (F E A S : List ℕ) : Prop where
  hn : 2 ≤ st.events.length
  path : nextPath st.events st.first (Cpre ++ st.current :: Cpost) e
  exit : ¬ e < st.events.length
  groups : groupsOk st.events (Cpre ++ st.current :: Cpost) G
  role : (Cpre = [] ∧ st.prev = st.current) ∨ (∃ Cp, Cpre = Cp ++ [st.prev])
  pre_split : Cpre = F ++ E
  runAbove : ∀ i ∈ E ++ [st.current], ∀ x ∈ F, isAfterIdx st.events i x
  runSorted : chainSorted st.events (E ++ [st.current])
  noswapF : st.swapped = false → F = []
  settled_split : Cpre ++ st.current :: Cpost = A ++ S
  sortedS : chainSorted st.events S
  aboveS : ∀ a ∈ A, ∀ b ∈ S, isAfterIdx st.events b a
  disjFS : F.Disjoint S
  lastA : st.last ∈ A → A.getLast? = some st.last
  swapWitness : st.swapped = true → ∃ x, x ∈ E ++ [st.current] ∧ x ∉ S

/-- The loop invariant, data existentially packaged. -/
def SortInv (st : SortState) : Prop :=
  ∃ Cpre Cpost G e F E A S, SortInvP st Cpre Cpost G e F E A S

/-- The sorted-traversal postcondition: a chain from `fst`, exiting out of
range, with strictly increasing positions, and position-uniform sibling
groups partitioning all events. -/
def SortedEvents (ev : List TraversalEvent) (fst : ℕ) : Prop :=
  ∃ C G ex, nextPath ev fst C ex ∧ ¬ ex < ev.length ∧ chainSorted ev C ∧
    groupsOk ev C G

/-- The events produced by a sequence of pushes starting at index `k`. -/
def pushedEvents (k : ℕ) : List Point → List TraversalEvent
  | [] => []
  | p :: ps => ⟨usizeMax, k + 1, p⟩ :: pushedEvents (k + 1) ps

/-- The traversal built by a sequence of pushes. -/
def pushSeq (pushes : List Point) : Traversal :=
  pushes.foldl Traversal.push Traversal.new

theorem compare_positions_gt_iff (a b : Point) :
    compare_positions a b = .gt ↔ is_after a b := by
  unfold compare_positions
  split_ifs with h1 h2 h3 h4
  · exact iff_of_true rfl (Or.inl h1)
  · exact iff_of_false (by decide) (by unfold is_after; rintro (hc | ⟨hc, hx⟩) <;> linarith)
  · exact iff_of_true rfl (Or.inr ⟨le_antisymm (not_lt.mp h1) (not_lt.mp h2), h3⟩)
  · exact iff_of_false (by decide) (by unfold is_after; rintro (hc | ⟨hc, hx⟩) <;> linarith)
  · exact iff_of_false (by decide) (by unfold is_after; rintro (hc | ⟨hc, hx⟩) <;> linarith)

theorem compare_positions_lt_iff (a b : Point) :
    compare_positions a b = .lt ↔ is_after b a := by
  unfold compare_positions
  split_ifs with h1 h2 h3 h4
  · exact iff_of_false (by decide) (by unfold is_after; rintro (hc | ⟨hc, hx⟩) <;> linarith)
  · exact iff_of_true rfl (Or.inl h2)
  · exact iff_of_false (by decide) (by unfold is_after; rintro (hc | ⟨hc, hx⟩) <;> linarith)
  · exact iff_of_true rfl (Or.inr ⟨(le_antisymm (not_lt.mp h1) (not_lt.mp h2)).symm, h4⟩)
  · exact iff_of_false (by decide) (by unfold is_after; rintro (hc | ⟨hc, hx⟩) <;> linarith)

theorem compare_positions_eq_iff (a b : Point) :
    compare_positions a b = .eq ↔ a = b := by
  unfold compare_positions
  split_ifs with h1 h2 h3 h4
  · exact iff_of_false (by decide) (fun hab => by cases hab; exact lt_irrefl _ h1)
  · exact iff_of_false (by decide) (fun hab => by cases hab; exact lt_irrefl _ h2)
  · exact iff_of_false (by decide) (fun hab => by cases hab; exact lt_irrefl _ h3)
  · exact iff_of_false (by decide) (fun hab => by cases hab; exact lt_irrefl _ h4)
  · exact iff_of_true rfl
      (Point.ext (le_antisymm (not_lt.mp h3) (not_lt.mp h4))
        (le_antisymm (not_lt.mp h1) (not_lt.mp h2)))

theorem is_after_trans {a b c : Point} (h1 : is_after a b) (h2 : is_after b c) :
    is_after a c := by
  rcases h1 with h1 | ⟨h1, h1x⟩ <;> rcases h2 with h2 | ⟨h2, h2x⟩
  · exact Or.inl (h2.trans h1)
  · exact Or.inl (h2 ▸ h1)
  · exact Or.inl (h1 ▸ h2)
  · exact Or.inr ⟨h1.trans h2, h2x.trans h1x⟩

theorem is_after_asymm {a b : Point} (h1 : is_after a b) : ¬ is_after b a := by
  rintro (h2 | ⟨h2, h2x⟩) <;> rcases h1 with h1 | ⟨h1, h1x⟩ <;>
    simp_all [lt_asymm, lt_irrefl]

theorem is_after_irrefl (a : Point) : ¬ is_after a a := by
  simp [is_after]

theorem is_after_trichotomy (a b : Point) :
    is_after a b ∨ is_after b a ∨ a = b := by
  rcases h : compare_positions a b with hc | hc | hc
  · exact Or.inr (Or.inl ((compare_positions_lt_iff a b).mp h))
  · exact Or.inr (Or.inr ((compare_positions_eq_iff a b).mp h))
  · exact Or.inl ((compare_positions_gt_iff a b).mp h)

/-- C8: `is_after` and `compare_positions` implement the lexicographic
(y, x) order: `is_after a b` holds iff `a.y > b.y` or (`a.y = b.y` and
`a.x > b.x`); `compare_positions` returns `gt`/`lt`/`eq` exactly when
`a` is after `b` / `b` is after `a` / `a = b`; and the relation
satisfies trichotomy, asymmetry and transitivity. -/
theorem lex_order_total_order :
    ∀ a b c : Point,
      (is_after a b ↔ (a.y > b.y ∨ (a.y = b.y ∧ a.x > b.x))) ∧
      (compare_positions a b = .gt ↔ is_after a b) ∧
      (compare_positions a b = .lt ↔ is_after b a) ∧
      (compare_positions a b = .eq ↔ a = b) ∧
      (is_after a b ∨ is_after b a ∨ a = b) ∧
      ¬ (is_after a b ∧ is_after b a) ∧
      (is_after a b → ¬ a = b) ∧
      (is_after a b → is_after b c → is_after a c) := by
  intro a b c
  refine ⟨Iff.rfl, compare_positions_gt_iff a b, compare_positions_lt_iff a b,
    compare_positions_eq_iff a b, is_after_trichotomy a b, ?_, ?_, is_after_trans⟩
  · rintro ⟨h1, h2⟩; exact is_after_asymm h1 h2
  · rintro h1 rfl; exact is_after_irrefl a h1

theorem tmod_two_ne_zero_iff_odd (n : ℤ) : n.tmod 2 ≠ 0 ↔ Odd n := by
  rw [Int.odd_iff]
  rcases n with k | k
  · rw [show Int.tmod (Int.ofNat k) 2 = Int.ofNat (k % 2) from rfl]
    simp only [Int.ofNat_eq_coe]
    push_cast
    omega
  · rw [show Int.tmod (Int.negSucc k) 2 = -Int.ofNat ((k+1) % 2) from rfl, Int.negSucc_eq]
    simp only [Int.ofNat_eq_coe]
    push_cast
    omega

/-- C4: the even-odd rule is "inside" iff the winding number is odd
(negative numbers included), the non-zero rule iff it is nonzero;
`transition` is `In`/`Out`/`None` exactly per the membership flip; and
`update_winding` adds the edge winding, stores that transition, and
increments `span_index` exactly on `In` (never decrementing it). -/
theorem fill_rule_winding_spec :
    ∀ (r : FillRule) (n prev_w new_w edge_w : ℤ) (w : WindingState),
      (FillRule.EvenOdd.is_in n ↔ Odd n) ∧
      (FillRule.NonZero.is_in n ↔ n ≠ 0) ∧
      (r.transition prev_w new_w = .In ↔ (¬ r.is_in prev_w ∧ r.is_in new_w)) ∧
      (r.transition prev_w new_w = .Out ↔ (r.is_in prev_w ∧ ¬ r.is_in new_w)) ∧
      (r.transition prev_w new_w = .None ↔
        ((r.is_in prev_w ↔ r.is_in new_w))) ∧
      ((r.update_winding w edge_w).number = w.number + edge_w) ∧
      ((r.update_winding w edge_w).transition =
        r.transition w.number (w.number + edge_w)) ∧
      ((r.update_winding w edge_w).span_index =
        if r.transition w.number (w.number + edge_w) = .In
        then w.span_index + 1 else w.span_index) ∧
      (w.span_index ≤ (r.update_winding w edge_w).span_index) := by
  intro r n prev_w new_w edge_w w
  refine ⟨tmod_two_ne_zero_iff_odd n, Iff.rfl, ?_, ?_, ?_, rfl, rfl, rfl, ?_⟩
  · unfold FillRule.transition
    by_cases h1 : r.is_in prev_w <;> by_cases h2 : r.is_in new_w <;> simp [h1, h2]
  · unfold FillRule.transition
    by_cases h1 : r.is_in prev_w <;> by_cases h2 : r.is_in new_w <;> simp [h1, h2]
  · unfold FillRule.transition
    by_cases h1 : r.is_in prev_w <;> by_cases h2 : r.is_in new_w <;> simp [h1, h2]
  · unfold FillRule.update_winding
    dsimp only
    split <;> omega

/-- C6: merging into a span slot whose right neighbour does not exist —
`span_idx + 1 ≥ spans.len()` — is a no-op: the span list and the geometry
output are returned unchanged rather than aborting. -/
theorem merge_spans_out_of_range_noop
    (s : Spans) (span_idx : ℤ) (cp : Point) (cv : VertexId)
    (mp : Point) (mv : VertexId) (output : GeometryOutput)
    (hrange : -(2 : ℤ) ^ 31 ≤ span_idx ∧ span_idx < (2 : ℤ) ^ 31)
    (h : (s.spans.length : ℤ) ≤ span_idx + 1) :
    s.merge_spans span_idx cp cv mp mv output = (s, output) := by
  unfold Spans.merge_spans
  have hle : s.spans.length ≤ usize_of_i32 span_idx + 1 := by
    unfold usize_of_i32
    rcases le_or_lt 0 span_idx with hz | hz
    · have h1 : span_idx % (2 : ℤ) ^ 64 = span_idx :=
        Int.emod_eq_of_lt hz (by have := hrange.2; norm_num at *; omega)
      rw [h1]; omega
    · have h0 : span_idx + 1 ≤ 0 := by omega
      have : (s.spans.length : ℤ) ≤ 0 := le_trans h h0
      omega
  simp [hle]

/-- Witness for C6 at a concrete state: one span, `span_idx = 0`. -/
theorem merge_spans_out_of_range_noop_witness :
    ((⟨[⟨MonotoneTessellator.new, false⟩]⟩ : Spans).spans.length : ℤ) ≤ 0 + 1 ∧
    (⟨[⟨MonotoneTessellator.new, false⟩]⟩ : Spans).merge_spans 0 (point 1 2) 3
      (point 4 5) 6 GeometryOutput.empty =
      ((⟨[⟨MonotoneTessellator.new, false⟩]⟩ : Spans), GeometryOutput.empty) :=
  ⟨by norm_num, merge_spans_out_of_range_noop _ 0 _ _ _ _ _ (by norm_num) (by norm_num)⟩

/-- C2: per segment (line or quadratic uniformly), a degenerate segment
(coincident endpoints) produces no event and no edge record; otherwise
exactly one event is pushed at the segment's upper endpoint (the endpoint
not after the other in the (y, x) order): when `current` is the upper
endpoint the edge record is `{from = current_id, ctrl = ctrl_id,
to = to_id, winding = +1}` (the segment ran upper→lower in path order,
and no synthetic event can fire), and when `current` is the lower endpoint
the record is `{from = to_id, ctrl = ctrl_id, to = current_id,
winding = −1}`, preceded by the local-maximum vertex event exactly when
`current` is also after `prev` on a non-first edge. -/
theorem quad_to_event_spec (b : TraversalBuilder) (toPt : Point)
    (ctrl_id to_id : VertexId) :
    (b.current = toPt → b.quad_to toPt ctrl_id to_id = b) ∧
    (b.current ≠ toPt → ¬ is_after b.current toPt →
      (b.quad_to toPt ctrl_id to_id).tx.events.map TraversalEvent.position =
        b.tx.events.map TraversalEvent.position ++ [b.current] ∧
      (b.quad_to toPt ctrl_id to_id).edge_data =
        b.edge_data ++ [⟨b.current_id, ctrl_id, to_id, 1⟩]) ∧
    (b.current ≠ toPt → is_after b.current toPt →
      (b.quad_to toPt ctrl_id to_id).tx.events.map TraversalEvent.position =
        b.tx.events.map TraversalEvent.position ++
          (if 0 < b.nth ∧ is_after b.current b.prev then [b.current] else []) ++
          [toPt] ∧
      (b.quad_to toPt ctrl_id to_id).edge_data =
        b.edge_data ++
          (if 0 < b.nth ∧ is_after b.current b.prev then [vertexEdgeData] else []) ++
          [⟨to_id, ctrl_id, b.current_id, -1⟩]) := by
  refine ⟨?_, ?_, ?_⟩
  · intro h
    unfold TraversalBuilder.quad_to
    simp [h]
  · intro hne hafter
    unfold TraversalBuilder.quad_to
    simp [hne, hafter, Traversal.push]
  · intro hne hafter
    unfold TraversalBuilder.quad_to
    by_cases hv : 0 < b.nth ∧ is_after b.current b.prev
    · simp [hne, hafter, hv, Traversal.push, TraversalBuilder.vertex_event,
        vertexEdgeData]
    · simp [hne, hafter, hv, Traversal.push, TraversalBuilder.vertex_event,
        vertexEdgeData]

/-- Witness for C2: a non-degenerate descending segment at a concrete
builder state (current = (0,0), to = (1,2), so `current` is the upper
endpoint), and a concrete degenerate segment. -/
theorem quad_to_event_spec_witness :
    ((TraversalBuilder.new.move_to (point 0 0) 7).quad_to (point 1 2) 5 8).edge_data =
      [⟨7, 5, 8, 1⟩] ∧
    (TraversalBuilder.new.move_to (point 0 0) 7).quad_to (point 0 0) 5 8 =
      TraversalBuilder.new.move_to (point 0 0) 7 := by
  constructor
  · have h := (quad_to_event_spec (TraversalBuilder.new.move_to (point 0 0) 7)
      (point 1 2) 5 8).2.1 (by decide) (by decide)
    rw [h.2]
    decide
  · exact (quad_to_event_spec (TraversalBuilder.new.move_to (point 0 0) 7)
      (point 0 0) 5 8).1 rfl

theorem processEvents_sameCore (s t : FillTessellator) (v : VertexId)
    (o : GeometryOutput) (hcp : s.current_position = t.current_position)
    (h : sameCore s t) :
    (processEvents s v o).2 = (processEvents t v o).2 ∧
    sameCore (processEvents s v o).1 (processEvents t v o).1 ∧
    (processEvents s v o).1.current_position =
      (processEvents t v o).1.current_position := by
  obtain ⟨h1, h2, h3, h4⟩ := h
  cases s; cases t
  simp only at hcp h1 h2 h3 h4
  subst hcp; subst h1; subst h2; subst h3; subst h4
  exact ⟨rfl, ⟨rfl, rfl, rfl, rfl⟩, rfl⟩

theorem tessLoop_sameCore (events : Traversal) (edge_data : List EdgeData)
    (path_verts : List Point) :
    ∀ (fuel ce : ℕ) (s t : FillTessellator) (o : GeometryOutput),
    sameCore s t →
    (tessLoop events edge_data path_verts fuel ce s o).2 =
    (tessLoop events edge_data path_verts fuel ce t o).2 := by
  intro fuel
  induction fuel with
  | zero => intro ce s t o h; rfl
  | succ fuel ih =>
      intro ce s t o h
      obtain ⟨h1, h2, h3, h4⟩ := h
      by_cases hce : ce < events.events.length
      · simp only [tessLoop, if_pos hce]
        have hpe := processEvents_sameCore
          { s with current_position := events.position ce, edges_below := gatherSiblings events edge_data path_verts (events.position ce) (o.add_vertex (events.position ce)).2 (events.events.length + 1) ce s.edges_below }
          { t with current_position := events.position ce, edges_below := gatherSiblings events edge_data path_verts (events.position ce) (o.add_vertex (events.position ce)).2 (events.events.length + 1) ce t.edges_below }
          (o.add_vertex (events.position ce)).2 (o.add_vertex (events.position ce)).1
          (by simp) (by refine ⟨by simp [h1], by simp [h2], by simp [h3], by simp [h4]⟩)
        rw [hpe.1]
        exact ih _ _ _ _ hpe.2.1
      · simp only [tessLoop, if_neg hce]

/-- C5: degenerate inputs — the empty path, a lone move-to, and a closed
sub-path with zero edges — produce no traversal events, and
`tessellate_path` completes emitting no vertices and no triangles while
still bracketing the run with exactly one `begin_geometry` and one
`end_geometry` call. -/
theorem degenerate_path_spec (p : Point) (id : VertexId) (vs : List Point)
    (s : FillTessellator) (opts : FillOptions) (o : GeometryOutput) :
    (TraversalBuilder.new.set_path []).build.1.events = [] ∧
    (TraversalBuilder.new.set_path [.moveTo p id]).build.1.events = [] ∧
    (TraversalBuilder.new.set_path [.moveTo p id, .closeEv]).build.1.events = [] ∧
    (tessellate_path s ⟨[], vs⟩ opts o).2 =
      { o with begin_count := o.begin_count + 1, end_count := o.end_count + 1 } ∧
    (tessellate_path s ⟨[.moveTo p id], vs⟩ opts o).2 =
      { o with begin_count := o.begin_count + 1, end_count := o.end_count + 1 } ∧
    (tessellate_path s ⟨[.moveTo p id, .closeEv], vs⟩ opts o).2 =
      { o with begin_count := o.begin_count + 1, end_count := o.end_count + 1 } := by
  refine ⟨rfl, ?_, ?_, rfl, ?_, ?_⟩ <;>
    simp [tessellate_path, TraversalBuilder.set_path, TraversalBuilder.step,
      TraversalBuilder.move_to, TraversalBuilder.close, TraversalBuilder.build,
      TraversalBuilder.new, Traversal.sort, Traversal.new, tessLoop,
      Traversal.first_id, GeometryOutput.begin_geometry, GeometryOutput.end_geometry]

/-- Counterexample to C7: `tessellate_path` contains no code clearing the
active-edge list, the span list, or `edges_below`.  Running it on the
empty path (which otherwise never touches those vectors) from a dirty
state leaves every one of them non-empty; had the engine cleared them at
the start of the call, all three would be empty afterwards. -/
theorem tessellate_path_does_not_clear :
    (tessellate_path dirtyState ⟨[], []⟩ ⟨.EvenOdd⟩ GeometryOutput.empty).1.active.edges ≠ [] ∧
    (tessellate_path dirtyState ⟨[], []⟩ ⟨.EvenOdd⟩ GeometryOutput.empty).1.edges_below ≠ [] ∧
    (tessellate_path dirtyState ⟨[], []⟩ ⟨.EvenOdd⟩ GeometryOutput.empty).1.fill.spans ≠ [] := by
  refine ⟨?_, ?_, ?_⟩ <;> decide

/-- C7 as amended: `tessellate_path` does not clear the internal vectors at
the start of a run; instead, reuse of one engine instance is sound exactly
because a completed run leaves them empty.  Whenever the active-edge list,
the pending-edge list and the span list are empty at call time, the run
produces the same geometry output as a freshly constructed instance on the
same path and options (the remaining state — `current_position`,
`fill_rule`, `log` — cannot influence the output). -/
theorem tessellate_path_reuse_from_empty (s : FillTessellator) (l : Bool)
    (path : PathModel) (opts : FillOptions) (o : GeometryOutput)
    (h1 : s.active.edges = []) (h2 : s.edges_below = [])
    (h3 : s.fill.spans = []) :
    (tessellate_path s path opts o).2 =
    (tessellate_path (FillTessellator.new l) path opts o).2 := by
  have ha : s.active = ⟨[]⟩ := by cases hA : s.active with
    | mk es => rw [hA] at h1; simp at h1; simp [h1]
  have hf : s.fill = ⟨[]⟩ := by cases hF : s.fill with
    | mk sp => rw [hF] at h3; simp at h3; simp [h3]
  unfold tessellate_path
  simp only
  congr 1
  apply tessLoop_sameCore
  exact ⟨by simp [ha, FillTessellator.new], by simp [h2, FillTessellator.new],
    by simp, by simp [hf, FillTessellator.new]⟩

/-- Witness for C7 (amended): reuse from a clean state with a different
log flag yields the fresh instance's output on a concrete path. -/
theorem tessellate_path_reuse_from_empty_witness :
    (tessellate_path (FillTessellator.new true)
        ⟨[.moveTo (point 0 0) 0, .lineTo (point 1 2) 1, .closeEv], [point 0 0, point 1 2]⟩
        ⟨.EvenOdd⟩ GeometryOutput.empty).2 =
    (tessellate_path (FillTessellator.new false)
        ⟨[.moveTo (point 0 0) 0, .lineTo (point 1 2) 1, .closeEv], [point 0 0, point 1 2]⟩
        ⟨.EvenOdd⟩ GeometryOutput.empty).2 :=
  tessellate_path_reuse_from_empty (FillTessellator.new true) false _ _ _ rfl rfl rfl

/-- C9: tessellation is deterministic and independent of the logging
environment variable: the geometry output is a pure function of the path
and the options (two runs of the embedded `tessellate_path` on the same
input are the very same value), and fresh engines whose `log` flags differ
— the only state the environment influences — produce identical output
vertex and triangle sequences. -/
theorem tessellate_deterministic_log_independent
    (path : PathModel) (opts : FillOptions) (o : GeometryOutput) (l1 l2 : Bool) :
    (tessellate_path (FillTessellator.new l1) path opts o).2 =
    (tessellate_path (FillTessellator.new l2) path opts o).2 := by
  unfold tessellate_path
  simp only
  congr 1
  apply tessLoop_sameCore
  exact ⟨rfl, rfl, rfl, rfl⟩

theorem vertexEventsOf_vertex_event (b : TraversalBuilder) (p : Point)
    (h : edOk b) :
    vertexEventsOf (b.vertex_event p) = vertexEventsOf b ++ [p] ∧
    edOk (b.vertex_event p) := by
  unfold vertexEventsOf edOk TraversalBuilder.vertex_event Traversal.push at *
  constructor
  · rw [List.zip_append (by simpa using h)]
    simp [vertexEdgeData]
  · simp [h]

theorem ne_vertexEdgeData_of_winding {e : EdgeData} (h : e.winding ≠ 0) :
    e ≠ vertexEdgeData := by
  intro hc
  rw [hc] at h
  exact h rfl

theorem vertexEventsOf_quad_to (b : TraversalBuilder) (toPt : Point)
    (cid tid : VertexId) (hne : b.current ≠ toPt) (h : edOk b) :
    vertexEventsOf (b.quad_to toPt cid tid) =
      vertexEventsOf b ++
        (if is_after b.current toPt ∧ 0 < b.nth ∧ is_after b.current b.prev
          then [b.current] else []) ∧
    edOk (b.quad_to toPt cid tid) ∧
    (b.quad_to toPt cid tid).current = toPt ∧
    (b.quad_to toPt cid tid).prev = b.current ∧
    (b.quad_to toPt cid tid).first = b.first ∧
    (b.quad_to toPt cid tid).first_id = b.first_id ∧
    (b.quad_to toPt cid tid).nth = b.nth + 1 ∧
    (b.quad_to toPt cid tid).second = (if b.nth = 0 then toPt else b.second) ∧
    (b.quad_to toPt cid tid).current_id = tid := by
  by_cases hv : is_after b.current toPt ∧ 0 < b.nth ∧ is_after b.current b.prev
  · have hvv := vertexEventsOf_vertex_event b b.current h
    unfold TraversalBuilder.quad_to
    rw [if_neg hne, if_pos hv]
    refine ⟨?_, ?_, rfl, rfl, rfl, rfl, rfl, rfl, rfl⟩
    · show (((b.vertex_event b.current).tx.push _).events.zip
        ((b.vertex_event b.current).edge_data ++ _)).filterMap _ = _
      unfold Traversal.push
      rw [List.zip_append (by simpa using hvv.2)]
      simp only [List.filterMap_append]
      rw [show ((b.vertex_event b.current).tx.events.zip
        (b.vertex_event b.current).edge_data).filterMap
          (fun pr => if pr.2 = vertexEdgeData then some pr.1.position else none) =
          vertexEventsOf (b.vertex_event b.current) from rfl, hvv.1]
      simp [vertexEdgeData, hv.1, hv.2.1, hv.2.2]
    · show edOk _
      have h2 := hvv.2
      unfold edOk at h2 ⊢
      simp [Traversal.push]
      omega
  · unfold TraversalBuilder.quad_to
    rw [if_neg hne, if_neg hv]
    refine ⟨?_, ?_, rfl, rfl, rfl, rfl, rfl, rfl, rfl⟩
    · show ((b.tx.push _).events.zip (b.edge_data ++ _)).filterMap _ = _
      unfold Traversal.push
      rw [List.zip_append (by simpa using h)]
      simp only [List.filterMap_append]
      rw [if_neg hv, List.append_nil]
      have hrw : (b.tx.events.zip b.edge_data).filterMap
          (fun pr => if pr.2 = vertexEdgeData then some pr.1.position else none) =
          vertexEventsOf b := rfl
      rw [hrw]
      simp [vertexEdgeData]
      intro hc h1 h2
      split <;> norm_num
    · show edOk _
      unfold edOk at h ⊢
      simp [Traversal.push]
      omega

theorem lineTos_fold (rest : List Point) :
    ∀ (b : TraversalBuilder) (k : ℕ), 0 < b.nth → edOk b →
    List.Chain' (fun a c => a ≠ c) (b.current :: rest) →
    vertexEventsOf (List.foldl TraversalBuilder.step b (lineTos k rest)) =
      vertexEventsOf b ++ maximaScan b.prev b.current rest ∧
    edOk (List.foldl TraversalBuilder.step b (lineTos k rest)) ∧
    ((List.foldl TraversalBuilder.step b (lineTos k rest)).prev,
     (List.foldl TraversalBuilder.step b (lineTos k rest)).current) =
      lastTwo b.prev b.current rest ∧
    (List.foldl TraversalBuilder.step b (lineTos k rest)).first = b.first ∧
    (List.foldl TraversalBuilder.step b (lineTos k rest)).first_id = b.first_id ∧
    (List.foldl TraversalBuilder.step b (lineTos k rest)).second = b.second ∧
    0 < (List.foldl TraversalBuilder.step b (lineTos k rest)).nth := by
  induction rest with
  | nil =>
      intro b k hn he _
      exact ⟨by simp [lineTos, maximaScan], by simpa [lineTos] using he,
        by simp [lineTos, lastTwo], by simp [lineTos], by simp [lineTos],
        by simp [lineTos], by simpa [lineTos] using hn⟩
  | cons r rs ih =>
      intro b k hn he hch
      have hne : b.current ≠ r := (List.chain'_cons.mp hch).1
      have hq := vertexEventsOf_quad_to b r INVALID_ID k hne he
      have hstep : TraversalBuilder.step b (.lineTo r k) = b.quad_to r INVALID_ID k := rfl
      have hch2 : List.Chain' (fun a c => a ≠ c)
          ((b.quad_to r INVALID_ID k).current :: rs) := by
        rw [hq.2.2.1]
        exact (List.chain'_cons.mp hch).2
      have hihn : 0 < (b.quad_to r INVALID_ID k).nth := by
        rw [hq.2.2.2.2.2.2.1]; omega
      have hih := ih (b.quad_to r INVALID_ID k) (k + 1) hihn hq.2.1 hch2
      rw [lineTos]
      simp only [List.foldl_cons, hstep]
      refine ⟨?_, hih.2.1, ?_, ?_, ?_, ?_, hih.2.2.2.2.2.2⟩
      · rw [hih.1, hq.1, hq.2.2.1, hq.2.2.2.1]
        rw [maximaScan]
        rw [List.append_assoc]
        congr 1
        congr 1
        rcases Classical.em (is_after b.current r) with ha | ha <;>
          rcases Classical.em (is_after b.current b.prev) with hb | hb <;>
            simp [ha, hb, hn]
      · rw [hih.2.2.1, hq.2.2.1, hq.2.2.2.1, lastTwo]
      · rw [hih.2.2.2.1, hq.2.2.2.2.1]
      · rw [hih.2.2.2.2.1, hq.2.2.2.2.2.1]
      · rw [hih.2.2.2.2.2.1, hq.2.2.2.2.2.2.2.1, if_neg (by omega)]

theorem vertexEventsOf_close (b : TraversalBuilder) (hn : 0 < b.nth)
    (hne : b.current ≠ b.first) (he : edOk b) :
    vertexEventsOf b.close =
      vertexEventsOf b ++
        (if is_after b.current b.first ∧ is_after b.current b.prev
          then [b.current] else []) ++
        (if is_after b.first b.current ∧ is_after b.first b.second
          then [b.first] else []) := by
  unfold TraversalBuilder.close
  rw [if_neg (by omega)]
  have hq := vertexEventsOf_quad_to b b.first INVALID_ID b.first_id hne he
  have hlt : b.line_to b.first b.first_id = b.quad_to b.first INVALID_ID b.first_id := rfl
  simp only [if_pos hne, hlt]
  have hveq : ∀ c : TraversalBuilder, vertexEventsOf { c with nth := 0 } = vertexEventsOf c :=
    fun c => rfl
  rw [hveq]
  have hfst := hq.2.2.2.2.1
  have hprv := hq.2.2.2.1
  have hsec : (b.quad_to b.first INVALID_ID b.first_id).second = b.second := by
    rw [hq.2.2.2.2.2.2.2.1]
    exact if_neg (by omega)
  rw [hfst, hprv, hsec]
  have hAeq : (if is_after b.current b.first ∧ 0 < b.nth ∧ is_after b.current b.prev
      then [b.current] else []) =
      (if is_after b.current b.first ∧ is_after b.current b.prev
      then [b.current] else []) := by
    rcases Classical.em (is_after b.current b.first) with ha | ha <;>
      rcases Classical.em (is_after b.current b.prev) with hb | hb <;>
        simp [ha, hb, hn]
  by_cases hB : is_after b.first b.current ∧ is_after b.first b.second
  · rw [if_pos hB, (vertexEventsOf_vertex_event _ b.first hq.2.1).1, hq.1, hAeq,
      if_pos hB, List.append_assoc]
  · rw [if_neg hB, hq.1, hAeq, if_neg hB, List.append_nil]

theorem lastTwo_snd : ∀ (l : List Point) (a b : Point),
    (lastTwo a b l).2 = (b :: l).getLast (List.cons_ne_nil b l) := by
  intro l
  induction l with
  | nil => intro a b; simp [lastTwo]
  | cons c cs ih =>
      intro a b
      rw [lastTwo, ih]
      simp [List.getLast_cons]

theorem maximaScan_append_two (x y : Point) : ∀ (l : List Point) (prev cur : Point),
    maximaScan prev cur (l ++ [x, y]) =
      maximaScan prev cur l ++
        ((if is_after (lastTwo prev cur l).2 (lastTwo prev cur l).1 ∧
            is_after (lastTwo prev cur l).2 x then [(lastTwo prev cur l).2] else []) ++
         (if is_after x (lastTwo prev cur l).2 ∧ is_after x y then [x] else [])) := by
  intro l
  induction l with
  | nil =>
      intro prev cur
      simp [maximaScan, lastTwo]
  | cons c cs ih =>
      intro prev cur
      show maximaScan prev cur (c :: (cs ++ [x, y])) = _
      rw [maximaScan, ih, maximaScan, lastTwo, List.append_assoc]

/-- C3: over one closed polygonal sub-path with pairwise-distinct
consecutive vertices (cyclically), the synthetic vertex-only events — the
events whose edge data is entirely `INVALID` with winding 0 — are emitted
exactly at the local maxima of the sub-path: one event per vertex that is
after both its cyclic neighbours (for the closing vertex the previous and
the first vertex; for the first vertex the last and the second), in
emission order, and at no other vertex.  `maximaScan p0 q1 (qs ++ [p0, q1])`
enumerates exactly the cyclic triples (prev, v, next) with `v` after both
neighbours, in the order the builder checks them. -/
theorem vertex_events_at_local_maxima (p0 q1 : Point) (qs : List Point)
    (hadj : List.Chain' (fun a c => a ≠ c) (p0 :: q1 :: qs ++ [p0])) :
    vertexEventsOf (TraversalBuilder.new.set_path (polyEvents p0 (q1 :: qs))) =
    maximaScan p0 q1 (qs ++ [p0, q1]) := by
  have hch1 : List.Chain' (fun a c => a ≠ c) (q1 :: qs ++ [p0]) :=
    (List.chain'_cons.mp hadj).2
  have hsplit := List.chain'_append.mp (show List.Chain' (fun a c => a ≠ c)
    ((q1 :: qs) ++ [p0]) from hch1)
  have hne1 : p0 ≠ q1 := (List.chain'_cons.mp hadj).1
  have hlastne : ((q1 :: qs).getLast (List.cons_ne_nil q1 qs)) ≠ p0 := by
    have := hsplit.2.2 ((q1 :: qs).getLast (List.cons_ne_nil q1 qs))
      (by simp [List.getLast?_eq_getLast]) p0 rfl
    exact this
  -- unfold set_path into the explicit fold plus final close
  have hsp : TraversalBuilder.new.set_path (polyEvents p0 (q1 :: qs)) =
      (List.foldl TraversalBuilder.step TraversalBuilder.new
        (polyEvents p0 (q1 :: qs))).close := rfl
  rw [hsp]
  -- the fold: move_to, first line_to, remaining line_tos, the Close event
  have hfold : List.foldl TraversalBuilder.step TraversalBuilder.new
      (polyEvents p0 (q1 :: qs)) =
      (List.foldl TraversalBuilder.step
        ((TraversalBuilder.new.move_to p0 0).quad_to q1 INVALID_ID 1)
        (lineTos 2 qs)).close := by
    show List.foldl TraversalBuilder.step TraversalBuilder.new
      (.moveTo p0 0 :: .lineTo q1 1 :: (lineTos 2 qs ++ [.closeEv])) = _
    simp only [List.foldl_cons, List.foldl_append, List.foldl_nil]
    rfl
  rw [hfold]
  set bm := TraversalBuilder.new.move_to p0 0 with hbm
  have hbmfields : bm.current = p0 ∧ bm.nth = 0 ∧ bm.first = p0 ∧ edOk bm :=
    ⟨rfl, rfl, rfl, rfl⟩
  have hq1 := vertexEventsOf_quad_to bm q1 INVALID_ID 1 (by rw [hbmfields.1]; exact hne1)
    hbmfields.2.2.2
  set b1 := bm.quad_to q1 INVALID_ID 1 with hb1
  have hb1cur : b1.current = q1 := hq1.2.2.1
  have hb1prev : b1.prev = p0 := by rw [hq1.2.2.2.1]; exact hbmfields.1
  have hb1first : b1.first = p0 := by rw [hq1.2.2.2.2.1]; exact hbmfields.2.2.1
  have hb1nth : b1.nth = 1 := by rw [hq1.2.2.2.2.2.2.1, hbmfields.2.1]
  have hb1second : b1.second = q1 := by
    rw [hq1.2.2.2.2.2.2.2.1, hbmfields.2.1]
    simp
  have hb1ve : vertexEventsOf b1 = [] := by
    rw [hq1.1, hbmfields.2.1]
    simp [vertexEventsOf, hbm, TraversalBuilder.move_to, TraversalBuilder.new,
      Traversal.new]
  have hfl := lineTos_fold qs b1 2 (by omega) hq1.2.1
    (by rw [hb1cur]; exact hsplit.1)
  set b2 := List.foldl TraversalBuilder.step b1 (lineTos 2 qs) with hb2
  have hb2pc : (b2.prev, b2.current) = lastTwo p0 q1 qs := by
    rw [hfl.2.2.1, hb1prev, hb1cur]
  have hb2cur : b2.current = (lastTwo p0 q1 qs).2 := by
    rw [← hb2pc]
  have hb2prev : b2.prev = (lastTwo p0 q1 qs).1 := by
    rw [← hb2pc]
  have hb2first : b2.first = p0 := by rw [hfl.2.2.2.1, hb1first]
  have hb2second : b2.second = q1 := by rw [hfl.2.2.2.2.2.1, hb1second]
  have hb2ve : vertexEventsOf b2 = maximaScan p0 q1 qs := by
    rw [hfl.1, hb1ve, hb1prev, hb1cur]
    rfl
  have hb2curne : b2.current ≠ b2.first := by
    rw [hb2cur, hb2first, lastTwo_snd]
    exact hlastne
  have hcl := vertexEventsOf_close b2 hfl.2.2.2.2.2.2 hb2curne hfl.2.1
  -- the outer close after set_path is a no-op: nth is already 0
  have hcnz : ∀ c : TraversalBuilder, c.nth = 0 → c.close = c := by
    intro c h
    unfold TraversalBuilder.close
    rw [if_pos h]
  have hnz : (b2.close).nth = 0 := by
    unfold TraversalBuilder.close
    split
    · omega
    · rfl
  have houter : (b2.close).close = b2.close := hcnz _ hnz
  rw [houter, hcl, hb2ve, hb2cur, hb2prev, hb2first, hb2second,
    List.append_assoc, maximaScan_append_two]
  congr 1
  congr 1
  rcases Classical.em (is_after (lastTwo p0 q1 qs).2 p0) with ha | ha <;>
    rcases Classical.em (is_after (lastTwo p0 q1 qs).2 (lastTwo p0 q1 qs).1) with hb | hb <;>
      simp [ha, hb]

/-- Witness for C3: the triangle (0,0), (5,1), (3,5) — only (3,5) is a
local maximum, and exactly one vertex-only event is emitted, at (3,5). -/
theorem vertex_events_at_local_maxima_witness :
    List.Chain' (fun a c => a ≠ c)
      [point 0 0, point 5 1, point 3 5, point 0 0] ∧
    vertexEventsOf (TraversalBuilder.new.set_path
      (polyEvents (point 0 0) [point 5 1, point 3 5])) = [point 3 5] :=
  ⟨by norm_num [List.chain'_cons, List.chain'_singleton, point, Point.mk.injEq],
    by rw [vertex_events_at_local_maxima (point 0 0) (point 5 1) [point 3 5]
      (by norm_num [List.chain'_cons, List.chain'_singleton, point, Point.mk.injEq])]
       decide⟩

theorem isPathF_append (f : TraversalEvent → ℕ) (ev : List TraversalEvent)
    (l₁ : List ℕ) : ∀ (l₂ : List ℕ) (a c : ℕ),
    isPathF f ev a (l₁ ++ l₂) c ↔ ∃ b, isPathF f ev a l₁ b ∧ isPathF f ev b l₂ c := by
  induction l₁ with
  | nil =>
      intro l₂ a c
      constructor
      · intro h; exact ⟨a, rfl, h⟩
      · rintro ⟨b, hb, h2⟩; cases hb; exact h2
  | cons j rest ih =>
      intro l₂ a c
      constructor
      · rintro ⟨rfl, hlt, h⟩
        obtain ⟨b, h1, h2⟩ := (ih l₂ _ c).mp h
        exact ⟨b, ⟨rfl, hlt, h1⟩, h2⟩
      · rintro ⟨b, ⟨rfl, hlt, h1⟩, h2⟩
        exact ⟨rfl, hlt, (ih l₂ _ c).mpr ⟨b, h1, h2⟩⟩

theorem isPathF_mem_lt (f : TraversalEvent → ℕ) (ev : List TraversalEvent) :
    ∀ (l : List ℕ) (a c : ℕ), isPathF f ev a l c → ∀ x ∈ l, x < ev.length := by
  intro l
  induction l with
  | nil => intro a c _ x hx; cases hx
  | cons j rest ih =>
      rintro a c ⟨rfl, hlt, h⟩ x hx
      rcases List.mem_cons.mp hx with rfl | hx
      · exact hlt
      · exact ih _ _ h x hx

theorem isPathF_unique (f : TraversalEvent → ℕ) (ev : List TraversalEvent) :
    ∀ (l₁ l₂ : List ℕ) (a c₁ c₂ : ℕ), ¬ c₁ < ev.length → ¬ c₂ < ev.length →
    isPathF f ev a l₁ c₁ → isPathF f ev a l₂ c₂ → l₁ = l₂ ∧ c₁ = c₂ := by
  intro l₁
  induction l₁ with
  | nil =>
      intro l₂ a c₁ c₂ hc₁ hc₂ h₁ h₂
      cases h₁
      cases l₂ with
      | nil => cases h₂; exact ⟨rfl, rfl⟩
      | cons j rest => exact absurd h₂.2.1 (h₂.1 ▸ hc₁)
  | cons j rest ih =>
      intro l₂ a c₁ c₂ hc₁ hc₂ h₁ h₂
      obtain ⟨rfl, hlt, h₁'⟩ := h₁
      cases l₂ with
      | nil => cases h₂; exact absurd hlt hc₂
      | cons k rest₂ =>
          obtain ⟨rfl, hlt₂, h₂'⟩ := h₂
          obtain ⟨he, hc⟩ := ih rest₂ _ c₁ c₂ hc₁ hc₂ h₁' h₂'
          exact ⟨by rw [he], hc⟩

theorem isPathF_nodup (f : TraversalEvent → ℕ) (ev : List TraversalEvent) :
    ∀ (l : List ℕ) (a c : ℕ), ¬ c < ev.length → isPathF f ev a l c → l.Nodup := by
  intro l
  induction l with
  | nil => intro a c _ _; exact List.nodup_nil
  | cons j rest ih =>
      intro a c hc h
      have hlt : j < ev.length := h.2.1
      have h' : isPathF f ev (f (evGet ev j)) rest c := h.2.2
      refine List.nodup_cons.mpr ⟨?_, ih _ _ hc h'⟩
      intro hmem
      obtain ⟨r₁, r₂, hsplit⟩ := List.append_of_mem hmem
      rw [hsplit] at h'
      have hp1 : isPathF f ev j (j :: (r₁ ++ j :: r₂)) c := ⟨rfl, hlt, h'⟩
      obtain ⟨b, hb₁, hb₂⟩ := (isPathF_append f ev r₁ (j :: r₂) _ c).mp h'
      have hp2 : isPathF f ev j (j :: r₂) c := ⟨rfl, hlt, hb₂.2.2⟩
      obtain ⟨heq, -⟩ := isPathF_unique f ev _ _ _ _ _ hc hc hp1 hp2
      have hlen := congrArg List.length heq
      simp at hlen
      omega

theorem length_setNextEvent (ev : List TraversalEvent) (k v : ℕ) :
    (setNextEvent ev k v).length = ev.length :=
  List.length_modify _ _ _

theorem length_setNextSibling (ev : List TraversalEvent) (k v : ℕ) :
    (setNextSibling ev k v).length = ev.length :=
  List.length_modify _ _ _

theorem evGet_setNextEvent (ev : List TraversalEvent) (k v i : ℕ) :
    evGet (setNextEvent ev k v) i =
      if i = k ∧ k < ev.length then { evGet ev k with next_event := v }
      else evGet ev i := by
  unfold evGet setNextEvent
  rw [List.getD_eq_getElem?_getD, List.getD_eq_getElem?_getD, List.getElem?_modify]
  rcases Classical.em (i = k) with rfl | hik
  · rcases Classical.em (i < ev.length) with hlt | hlt
    · rw [List.getElem?_eq_getElem hlt]
      simp [hlt]
    · rw [List.getElem?_eq_none (by omega)]
      simp [hlt]
      rw [List.getElem?_eq_none (by omega)]
      rfl
  · rw [if_neg (fun hand => hik hand.1)]
    have hki : ¬ k = i := fun h => hik h.symm
    rcases hev : ev[i]? with _ | e <;>
      simp [evGet, List.getD_eq_getElem?_getD, hev, hki]

theorem evGet_setNextSibling (ev : List TraversalEvent) (k v i : ℕ) :
    evGet (setNextSibling ev k v) i =
      if i = k ∧ k < ev.length then { evGet ev k with next_sibling := v }
      else evGet ev i := by
  unfold evGet setNextSibling
  rw [List.getD_eq_getElem?_getD, List.getD_eq_getElem?_getD, List.getElem?_modify]
  rcases Classical.em (i = k) with rfl | hik
  · rcases Classical.em (i < ev.length) with hlt | hlt
    · rw [List.getElem?_eq_getElem hlt]
      simp [hlt]
    · rw [List.getElem?_eq_none (by omega)]
      simp [hlt]
      rw [List.getElem?_eq_none (by omega)]
      rfl
  · rw [if_neg (fun hand => hik hand.1)]
    have hki : ¬ k = i := fun h => hik h.symm
    rcases hev : ev[i]? with _ | e <;>
      simp [evGet, List.getD_eq_getElem?_getD, hev, hki]

theorem sib_setNextEvent (ev : List TraversalEvent) (k v i : ℕ) :
    (evGet (setNextEvent ev k v) i).next_sibling = (evGet ev i).next_sibling := by
  rw [evGet_setNextEvent]
  split
  · rename_i h; rw [h.1]
  · rfl

theorem pos_setNextEvent (ev : List TraversalEvent) (k v i : ℕ) :
    (evGet (setNextEvent ev k v) i).position = (evGet ev i).position := by
  rw [evGet_setNextEvent]
  split
  · rename_i h; rw [h.1]
  · rfl

theorem nextev_setNextSibling (ev : List TraversalEvent) (k v i : ℕ) :
    (evGet (setNextSibling ev k v) i).next_event = (evGet ev i).next_event := by
  rw [evGet_setNextSibling]
  split
  · rename_i h; rw [h.1]
  · rfl

theorem pos_setNextSibling (ev : List TraversalEvent) (k v i : ℕ) :
    (evGet (setNextSibling ev k v) i).position = (evGet ev i).position := by
  rw [evGet_setNextSibling]
  split
  · rename_i h; rw [h.1]
  · rfl

theorem nextev_setNextEvent_ne (ev : List TraversalEvent) (k v i : ℕ) (h : i ≠ k) :
    (evGet (setNextEvent ev k v) i).next_event = (evGet ev i).next_event := by
  rw [evGet_setNextEvent, if_neg (by tauto)]

theorem nextev_setNextEvent_eq (ev : List TraversalEvent) (k v : ℕ)
    (h : k < ev.length) :
    (evGet (setNextEvent ev k v) k).next_event = v := by
  rw [evGet_setNextEvent, if_pos ⟨rfl, h⟩]

theorem sib_setNextSibling_ne (ev : List TraversalEvent) (k v i : ℕ) (h : i ≠ k) :
    (evGet (setNextSibling ev k v) i).next_sibling = (evGet ev i).next_sibling := by
  rw [evGet_setNextSibling, if_neg (by tauto)]

theorem sib_setNextSibling_eq (ev : List TraversalEvent) (k v : ℕ)
    (h : k < ev.length) :
    (evGet (setNextSibling ev k v) k).next_sibling = v := by
  rw [evGet_setNextSibling, if_pos ⟨rfl, h⟩]

/-- Frame rule: a walk is unaffected by changes that preserve the array
length and the link field at every node the walk visits. -/
theorem isPathF_frame (f : TraversalEvent → ℕ) (ev ev' : List TraversalEvent)
    (hlen : ev'.length = ev.length) :
    ∀ (l : List ℕ) (a c : ℕ),
    (∀ i ∈ l, f (evGet ev' i) = f (evGet ev i)) →
    isPathF f ev a l c → isPathF f ev' a l c := by
  intro l
  induction l with
  | nil => intro a c _ h; exact h
  | cons j rest ih =>
      intro a c hf h
      refine ⟨h.1, by rw [hlen]; exact h.2.1, ?_⟩
      rw [hf j (List.mem_cons_self j rest)]
      exact ih _ _ (fun i hi => hf i (List.mem_cons_of_mem _ hi)) h.2.2

theorem nextPath_head (ev : List TraversalEvent) (a x : ℕ) (l : List ℕ) (c : ℕ)
    (h : nextPath ev a (x :: l) c) : a = x := h.1

theorem nextPath_link (ev : List TraversalEvent) (a : ℕ) (l₁ : List ℕ)
    (x y : ℕ) (l₂ : List ℕ) (c : ℕ)
    (h : nextPath ev a (l₁ ++ x :: y :: l₂) c) :
    (evGet ev x).next_event = y := by
  obtain ⟨b, h1, h2⟩ := (isPathF_append _ ev l₁ (x :: y :: l₂) a c).mp h
  exact h2.2.2.1

theorem nextPath_exit (ev : List TraversalEvent) (a : ℕ) (l₁ : List ℕ)
    (x : ℕ) (c : ℕ) (h : nextPath ev a (l₁ ++ [x]) c) :
    (evGet ev x).next_event = c := by
  obtain ⟨b, h1, h2⟩ := (isPathF_append _ ev l₁ [x] a c).mp h
  exact h2.2.2

/-- Walks with the same link structure and length: position-preserving
pointer writes keep all the position-level side conditions. -/
theorem chainSorted_congr (ev evp : List TraversalEvent)
    (hpos : ∀ i, posAt evp i = posAt ev i) (l : List ℕ)
    (h : chainSorted ev l) : chainSorted evp l := by
  unfold chainSorted at *
  refine List.Chain'.imp ?_ h
  intro i j hij
  unfold isAfterIdx at *
  rw [hpos, hpos]
  exact hij

/-- A strictly sorted chain is pairwise sorted. -/
theorem chainSorted_pairwise (ev : List TraversalEvent) (l : List ℕ)
    (h : chainSorted ev l) : l.Pairwise (fun i j => isAfterIdx ev j i) := by
  haveI : IsTrans ℕ (fun i j => isAfterIdx ev j i) :=
    ⟨fun a b c h1 h2 => is_after_trans h2 h1⟩
  exact List.chain'_iff_pairwise.mp h

/-- Splitting a list around a distinguished element is unique when the
list has no duplicates. -/
theorem nodup_middle_unique {x : ℕ} :
    ∀ (P1 : List ℕ) (R1 P2 R2 : List ℕ),
    P1 ++ x :: R1 = P2 ++ x :: R2 → (P1 ++ x :: R1).Nodup →
    P1 = P2 ∧ R1 = R2 := by
  intro P1
  induction P1 with
  | nil =>
      intro R1 P2 R2 heq hnd
      cases P2 with
      | nil =>
          refine ⟨rfl, ?_⟩
          have := (List.cons.injEq _ _ _ _ ▸ heq).2
          exact this
      | cons b P2' =>
          exfalso
          have h1 : x = b := (List.cons.injEq _ _ _ _ ▸ heq).1
          have h2 : R1 = P2' ++ x :: R2 := (List.cons.injEq _ _ _ _ ▸ heq).2
          have hx : x ∉ R1 := (List.nodup_cons.mp hnd).1
          exact hx (h2 ▸ List.mem_append.mpr (Or.inr (List.mem_cons_self _ _)))
  | cons a P1' ih =>
      intro R1 P2 R2 heq hnd
      cases P2 with
      | nil =>
          exfalso
          have h1 : a = x := (List.cons.injEq _ _ _ _ ▸ heq).1
          have hx : a ∉ P1' ++ x :: R1 := (List.nodup_cons.mp hnd).1
          exact hx (h1 ▸ List.mem_append.mpr (Or.inr (List.mem_cons_self _ _)))
      | cons b P2' =>
          have h1 : a = b := (List.cons.injEq _ _ _ _ ▸ heq).1
          have h2 : P1' ++ x :: R1 = P2' ++ x :: R2 :=
            (List.cons.injEq _ _ _ _ ▸ heq).2
          obtain ⟨hp, hr⟩ := ih R1 P2' R2 h2 (List.nodup_cons.mp hnd).2
          exact ⟨by rw [h1, hp], hr⟩

/-- A list with no duplicates whose members all lie below `n` has at most
`n` elements. -/
theorem nodup_lt_length_le (l : List ℕ) (n : ℕ) (hnd : l.Nodup)
    (hmem : ∀ x ∈ l, x < n) : l.length ≤ n := by
  have hsub : l ⊆ List.range n := fun x hx => List.mem_range.mpr (hmem x hx)
  have := (List.subperm_of_subset hnd hsub).length_le
  simpa using this

theorem append_eq_cons_split {α : Type} (A B Cpre R : List α) (x : α)
    (h : A ++ B = Cpre ++ x :: R) (hx : x ∈ A) (hnd : (Cpre ++ x :: R).Nodup) :
    ∃ A₂, A = Cpre ++ x :: A₂ ∧ A₂ ++ B = R := by
  have hxnotpre : x ∉ Cpre := by
    intro hc
    have := (List.nodup_append.mp hnd).2.2
    exact this hc (List.mem_cons_self x R)
  rcases le_or_lt A.length Cpre.length with hle | hlt
  · exfalso
    have hA : A = (Cpre ++ x :: R).take A.length := by
      rw [← h, List.take_left]
    rw [List.take_append_eq_append_take, Nat.sub_eq_zero_of_le hle,
      List.take_zero, List.append_nil] at hA
    exact hxnotpre (List.mem_of_mem_take (hA ▸ hx))
  · have hA : A = (Cpre ++ x :: R).take A.length := by
      rw [← h, List.take_left]
    rw [List.take_append_eq_append_take, List.take_of_length_le hlt.le] at hA
    have h1 : A.length - Cpre.length = (A.length - Cpre.length - 1) + 1 := by omega
    rw [h1, List.take_succ_cons] at hA
    refine ⟨R.take (A.length - Cpre.length - 1), hA, ?_⟩
    have h2 : Cpre ++ x :: (R.take (A.length - Cpre.length - 1) ++ B) =
        Cpre ++ x :: R := by
      rw [← List.cons_append, ← List.append_assoc, ← hA, h]
    have h3 := List.append_cancel_left h2
    exact (List.cons.injEq _ _ _ _ ▸ h3).2

/-- The `Ordering::Less` arm preserves the invariant: the cursor advances,
the ascending run extends by the old `current`, and the settled suffix is
untouched. -/
theorem compareStep_lt_inv (st : SortState) (Cpre Cpost : List ℕ)
    (G : List (List ℕ)) (e : ℕ) (F E A S : List ℕ)
    (h : SortInvP st Cpre Cpost G e F E A S)
    (hnv : (evGet st.events st.current).next_event < st.events.length)
    (hlt : compare_positions (evGet st.events st.current).position
      (evGet st.events ((evGet st.events st.current).next_event)).position = .lt) :
    ∃ Cpost2, Cpost = ((evGet st.events st.current).next_event) :: Cpost2 ∧
      SortInvP (compareStep st) (Cpre ++ [st.current]) Cpost2 G e
        F (E ++ [st.current]) A S := by
  set nxt := (evGet st.events st.current).next_event with hnxtdef
  have hstep : compareStep st = { st with prev := st.current, current := nxt } := by
    simp only [compareStep]
    rw [hlt]
  have hafter : isAfterIdx st.events nxt st.current :=
    (compare_positions_lt_iff _ _).mp hlt
  obtain ⟨Cpost2, rfl⟩ : ∃ Cpost2, Cpost = nxt :: Cpost2 := by
    cases Cpost with
    | nil =>
        exfalso
        have hx := nextPath_exit st.events st.first Cpre st.current e h.path
        rw [hnxtdef, hx] at hnv
        exact h.exit hnv
    | cons c rest =>
        have hl := nextPath_link st.events st.first Cpre st.current c rest e h.path
        exact ⟨rest, by rw [hnxtdef, hl]⟩
  refine ⟨Cpost2, rfl, ?_⟩
  rw [hstep]
  refine ⟨h.hn, ?_, h.exit, ?_, Or.inr ⟨Cpre, rfl⟩, ?_, ?_, ?_, ?_, ?_,
    h.sortedS, h.aboveS, h.disjFS, h.lastA, ?_⟩
  · simp only [List.append_assoc, List.cons_append, List.nil_append]
    exact h.path
  · refine ⟨?_, h.groups.2⟩
    have h1 := h.groups.1
    simp only [List.append_assoc, List.cons_append, List.nil_append]
    exact h1
  · rw [h.pre_split, List.append_assoc]
  · intro i hi x hx
    rcases List.mem_append.mp hi with hi | hi
    · exact h.runAbove i hi x hx
    · rw [List.mem_singleton.mp hi]
      exact is_after_trans hafter
        (h.runAbove st.current (List.mem_append.mpr (Or.inr (List.mem_singleton.mpr rfl))) x hx)
  · unfold chainSorted at *
    rw [List.chain'_append]
    refine ⟨h.runSorted, List.chain'_singleton _, ?_⟩
    intro a ha b hb
    rw [List.getLast?_concat] at ha
    cases ha
    cases hb
    exact hafter
  · exact h.noswapF
  · have h1 := h.settled_split
    simp only [List.append_assoc, List.cons_append, List.nil_append] at h1 ⊢
    exact h1
  · intro hsw
    obtain ⟨x, hx1, hx2⟩ := h.swapWitness hsw
    exact ⟨x, List.mem_append.mpr (Or.inl hx1), hx2⟩

theorem forall2_append_split {R : ℕ → List ℕ → Prop} :
    ∀ (l₁ l₂ : List ℕ) (G : List (List ℕ)),
    List.Forall₂ R (l₁ ++ l₂) G →
    ∃ A B, G = A ++ B ∧ List.Forall₂ R l₁ A ∧ List.Forall₂ R l₂ B := by
  intro l₁
  induction l₁ with
  | nil => intro l₂ G h; exact ⟨[], G, rfl, List.Forall₂.nil, h⟩
  | cons x rest ih =>
      intro l₂ G h
      rw [List.cons_append] at h
      obtain ⟨g, G', hxg, hrest, rfl⟩ := List.forall₂_cons_left_iff.mp h
      obtain ⟨A, B, rfl, hA, hB⟩ := ih l₂ G' hrest
      exact ⟨g :: A, B, rfl, List.Forall₂.cons hxg hA, hB⟩

/-- Sibling-link-preserving, position-preserving rewrites keep `groupsOk`. -/
theorem groupsOk_congr (ev evp : List TraversalEvent)
    (hlen : evp.length = ev.length)
    (hsib : ∀ i, (evGet evp i).next_sibling = (evGet ev i).next_sibling)
    (hpos : ∀ i, posAt evp i = posAt ev i)
    (C : List ℕ) (G : List (List ℕ)) (h : groupsOk ev C G) : groupsOk evp C G := by
  refine ⟨?_, by rw [hlen]; exact h.2⟩
  refine List.Forall₂.imp ?_ h.1
  intro c g hcg
  refine ⟨?_, ?_⟩
  · obtain ⟨e, hp, he⟩ := hcg.1
    refine ⟨e, ?_, by rw [hlen]; exact he⟩
    exact isPathF_frame _ ev evp hlen g c e (fun i _ => hsib i) hp
  · intro x hx
    rw [hpos, hpos]
    exact hcg.2 x hx

/-- Swapping two adjacent chain nodes re-aligns the sibling groups. -/
theorem groupsOk_swap (ev : List TraversalEvent) (P Q : List ℕ) (x y : ℕ)
    (G : List (List ℕ)) (h : groupsOk ev (P ++ x :: y :: Q) G) :
    ∃ G2, groupsOk ev (P ++ y :: x :: Q) G2 := by
  obtain ⟨hfa, hperm⟩ := h
  obtain ⟨A, B, rfl, hA, hB⟩ := forall2_append_split P (x :: y :: Q) G hfa
  obtain ⟨gx, B1, hgx, hB1, rfl⟩ := List.forall₂_cons_left_iff.mp hB
  obtain ⟨gy, B2, hgy, hB2, rfl⟩ := List.forall₂_cons_left_iff.mp hB1
  refine ⟨A ++ gy :: gx :: B2, ?_, ?_⟩
  · exact List.rel_append hA (List.Forall₂.cons hgy (List.Forall₂.cons hgx hB2))
  · refine List.Perm.trans ?_ hperm
    simp only [List.flatten_append, List.flatten_cons]
    refine List.Perm.append_left _ ?_
    rw [← List.append_assoc, ← List.append_assoc]
    exact List.Perm.append_right _ List.perm_append_comm

/-- The `Ordering::Greater` arm preserves the invariant: `next` is swapped
in front of `current`, the ascending run restarts, and the settled suffix
is untouched. -/
theorem compareStep_gt_inv (st : SortState) (Cpre Cpost : List ℕ)
    (G : List (List ℕ)) (e : ℕ) (F E A S : List ℕ)
    (h : SortInvP st Cpre Cpost G e F E A S)
    (hnv : (evGet st.events st.current).next_event < st.events.length)
    (hgt : compare_positions (evGet st.events st.current).position
      (evGet st.events ((evGet st.events st.current).next_event)).position = .gt) :
    ∃ Cpost2 G2 A2,
      Cpost = ((evGet st.events st.current).next_event) :: Cpost2 ∧
      SortInvP (compareStep st)
        (Cpre ++ [(evGet st.events st.current).next_event]) Cpost2 G2 e
        (Cpre ++ [(evGet st.events st.current).next_event]) [] A2 S := by
  set nxt := (evGet st.events st.current).next_event with hnxtdef
  have hstep : compareStep st =
      { st with
        events :=
          setNextEvent
            (setNextEvent
              (if st.prev ≠ st.current ∧ st.prev ≠ nxt
                then setNextEvent st.events st.prev nxt else st.events)
              st.current
              ((evGet (if st.prev ≠ st.current ∧ st.prev ≠ nxt
                then setNextEvent st.events st.prev nxt else st.events) nxt).next_event))
            nxt st.current
        first := if st.current = st.first then nxt else st.first
        last := if nxt = st.last then st.current else st.last
        swapped := true
        prev := nxt } := by
    simp only [compareStep]
    rw [hgt]
  set ev1 := (if st.prev ≠ st.current ∧ st.prev ≠ nxt
    then setNextEvent st.events st.prev nxt else st.events) with hev1
  set nn := (evGet ev1 nxt).next_event with hnn
  set ev2 := setNextEvent ev1 st.current nn with hev2
  set ev3 := setNextEvent ev2 nxt st.current with hev3
  obtain ⟨Cpost2, rfl⟩ : ∃ Cpost2, Cpost = nxt :: Cpost2 := by
    cases Cpost with
    | nil =>
        exfalso
        have hx := nextPath_exit st.events st.first Cpre st.current e h.path
        rw [hnxtdef, hx] at hnv
        exact h.exit hnv
    | cons c rest =>
        have hl := nextPath_link st.events st.first Cpre st.current c rest e h.path
        exact ⟨rest, by rw [hnxtdef, hl]⟩
  have hnd : (Cpre ++ st.current :: nxt :: Cpost2).Nodup :=
    isPathF_nodup _ _ _ _ _ h.exit h.path
  have hndparts := List.nodup_append.mp hnd
  have hpreN : Cpre.Nodup := hndparts.1
  have hdisj : Cpre.Disjoint (st.current :: nxt :: Cpost2) := hndparts.2.2
  have hrestN := hndparts.2.1
  have hcn : st.current ≠ nxt := by
    have h1 := (List.nodup_cons.mp hrestN).1
    intro hx
    exact h1 (hx ▸ List.mem_cons_self _ _)
  have hcur_post : st.current ∉ Cpost2 := by
    have h1 := (List.nodup_cons.mp hrestN).1
    intro hx
    exact h1 (List.mem_cons_of_mem _ hx)
  have hnxt_post : nxt ∉ Cpost2 := (List.nodup_cons.mp (List.nodup_cons.mp hrestN).2).1
  have hcur_pre : st.current ∉ Cpre := fun hx => hdisj hx (List.mem_cons_self _ _)
  have hnxt_pre : nxt ∉ Cpre := fun hx =>
    hdisj hx (List.mem_cons_of_mem _ (List.mem_cons_self _ _))
  have hcl : st.current < st.events.length :=
    isPathF_mem_lt _ _ _ _ _ h.path st.current (by simp)
  have hlen1 : ev1.length = st.events.length := by
    rw [hev1]
    split
    · exact length_setNextEvent _ _ _
    · rfl
  have hlen2 : ev2.length = st.events.length := by
    rw [hev2, length_setNextEvent, hlen1]
  have hlen3 : ev3.length = st.events.length := by
    rw [hev3, length_setNextEvent, hlen2]
  have hpos1 : ∀ i, posAt ev1 i = posAt st.events i := by
    intro i
    unfold posAt
    rw [hev1]
    split
    · exact pos_setNextEvent _ _ _ _
    · rfl
  have hpos3 : ∀ i, posAt ev3 i = posAt st.events i := by
    intro i
    have h1 := hpos1 i
    unfold posAt at h1 ⊢
    rw [hev3, pos_setNextEvent, hev2, pos_setNextEvent]
    exact h1
  have hAI : ∀ i j, isAfterIdx ev3 i j ↔ isAfterIdx st.events i j := by
    intro i j
    unfold isAfterIdx
    rw [hpos3, hpos3]
  have hsib3 : ∀ i, (evGet ev3 i).next_sibling = (evGet st.events i).next_sibling := by
    intro i
    rw [hev3, sib_setNextEvent, hev2, sib_setNextEvent, hev1]
    split
    · exact sib_setNextEvent _ _ _ _
    · rfl
  have hl_nxt : (evGet ev3 nxt).next_event = st.current := by
    rw [hev3]
    exact nextev_setNextEvent_eq _ _ _ (by rw [hlen2]; exact hnv)
  have hl_cur : (evGet ev3 st.current).next_event = nn := by
    rw [hev3, nextev_setNextEvent_ne _ _ _ _ hcn, hev2]
    exact nextev_setNextEvent_eq _ _ _ (by rw [hlen1]; exact hcl)
  have h_other : ∀ i, i ≠ st.current → i ≠ nxt → i ≠ st.prev →
      (evGet ev3 i).next_event = (evGet st.events i).next_event := by
    intro i h1 h2 h3
    rw [hev3, nextev_setNextEvent_ne _ _ _ _ h2, hev2,
      nextev_setNextEvent_ne _ _ _ _ h1, hev1]
    split
    · exact nextev_setNextEvent_ne _ _ _ _ h3
    · rfl
  have hnn_val : nn = (evGet st.events nxt).next_event := by
    rw [hnn, hev1]
    split
    · rename_i hcond
      exact nextev_setNextEvent_ne _ _ _ _ (fun hx => hcond.2 hx.symm)
    · rfl
  obtain ⟨b, hp1, hp2⟩ := (isPathF_append (fun ev => ev.next_event) st.events Cpre
    (st.current :: nxt :: Cpost2) st.first e).mp h.path
  obtain ⟨rfl, hcl2, hp3⟩ := hp2
  obtain ⟨-, hnl2, hp4⟩ := hp3
  have hpostmem : ∀ i ∈ Cpost2,
      (evGet ev3 i).next_event = (evGet st.events i).next_event := by
    intro i hi
    refine h_other i (fun hx => hcur_post (hx ▸ hi)) (fun hx => hnxt_post (hx ▸ hi)) ?_
    rcases h.role with ⟨hc, hpc⟩ | ⟨Cpre2, hC⟩
    · intro hx
      exact hcur_post (by rw [← hpc, ← hx]; exact hi)
    · intro hx
      have hpin : st.prev ∈ Cpre := by rw [hC]; simp
      exact hdisj hpin
        (List.mem_cons_of_mem _ (List.mem_cons_of_mem _ (by rw [hx] at hi; exact hi)))
  have hpartA : isPathF (fun ev => ev.next_event) ev3
      (if st.current = st.first then nxt else st.first) (Cpre ++ [nxt]) st.current := by
    rcases h.role with ⟨hcnil, hpc⟩ | ⟨Cpre2, hCeq⟩
    · rw [hcnil]
      have hf : st.first = st.current := by
        have hpp := h.path
        rw [hcnil] at hpp
        exact nextPath_head _ _ _ _ _ hpp
      rw [if_pos hf.symm]
      exact ⟨rfl, by rw [hlen3]; exact hnv, hl_nxt⟩
    · rw [hCeq]
      rw [hCeq] at hp1 hcur_pre hnxt_pre hpreN
      have hprevin : st.prev ∈ Cpre2 ++ [st.prev] := by simp
      have hprevlt : st.prev < st.events.length :=
        isPathF_mem_lt _ _ _ _ _ hp1 st.prev hprevin
      have hprev_ne_cur : st.prev ≠ st.current :=
        fun hx => hcur_pre (by rw [← hx]; exact hprevin)
      have hprev_ne_nxt : st.prev ≠ nxt :=
        fun hx => hnxt_pre (by rw [← hx]; exact hprevin)
      have hl_prev : (evGet ev3 st.prev).next_event = nxt := by
        rw [hev3, nextev_setNextEvent_ne _ _ _ _ hprev_ne_nxt, hev2,
          nextev_setNextEvent_ne _ _ _ _ hprev_ne_cur, hev1,
          if_pos ⟨hprev_ne_cur, hprev_ne_nxt⟩]
        exact nextev_setNextEvent_eq _ _ _ hprevlt
      have hfne : ¬ st.current = st.first := by
        intro hx
        obtain ⟨y, Y, hY⟩ := List.exists_cons_of_ne_nil
          (l := Cpre2 ++ [st.prev]) (by simp)
        rw [hY] at hp1
        have hfy : st.first = y := hp1.1
        have hyin : st.first ∈ Cpre2 ++ [st.prev] := by
          rw [hY, hfy]
          exact List.mem_cons_self _ _
        exact hcur_pre (by rw [hx]; exact hyin)
      rw [if_neg hfne]
      refine (isPathF_append _ ev3 (Cpre2 ++ [st.prev]) [nxt] _ _).mpr ⟨nxt, ?_, ?_⟩
      · refine (isPathF_append _ ev3 Cpre2 [st.prev] _ _).mpr ?_
        obtain ⟨c, hq1, hq2⟩ :=
          (isPathF_append (fun ev => ev.next_event) st.events Cpre2 [st.prev]
            st.first st.current).mp hp1
        obtain ⟨rfl, hplt, hpexit⟩ := hq2
        refine ⟨st.prev, ?_, ⟨rfl, by rw [hlen3]; exact hplt, hl_prev⟩⟩
        refine isPathF_frame _ st.events ev3 hlen3 Cpre2 st.first st.prev ?_ hq1
        intro i hi
        have hiC : i ∈ Cpre2 ++ [st.prev] := List.mem_append.mpr (Or.inl hi)
        refine h_other i (fun hx => hcur_pre (by rw [← hx]; exact hiC))
          (fun hx => hnxt_pre (by rw [← hx]; exact hiC)) ?_
        intro hx
        have hnd2 := List.nodup_append.mp hpreN
        exact hnd2.2.2 hi (by rw [hx]; exact List.mem_singleton.mpr rfl)
      · exact ⟨rfl, by rw [hlen3]; exact hnv, hl_nxt⟩
  have hpartB : isPathF (fun ev => ev.next_event) ev3 st.current
      (st.current :: Cpost2) e := by
    refine ⟨rfl, by rw [hlen3]; exact hcl, ?_⟩
    show isPathF (fun ev => ev.next_event) ev3
      ((evGet ev3 st.current).next_event) Cpost2 e
    rw [hl_cur, hnn_val]
    exact isPathF_frame _ st.events ev3 hlen3 Cpost2 _ e hpostmem hp4
  obtain ⟨G2, hG2⟩ := groupsOk_swap st.events Cpre Cpost2 st.current nxt G h.groups
  have hG3 : groupsOk ev3 (Cpre ++ nxt :: st.current :: Cpost2) G2 :=
    groupsOk_congr st.events ev3 hlen3 hsib3 hpos3 _ _ hG2
  have hndAS : (A ++ S).Nodup := h.settled_split ▸ hnd
  have hdisjAS : A.Disjoint S := (List.nodup_append.mp hndAS).2.2
  have hcurS : st.current ∉ S := by
    intro hmem
    obtain ⟨S1, S2, rfl⟩ := List.append_of_mem hmem
    have hCeq2 : (A ++ S1) ++ st.current :: S2 =
        Cpre ++ st.current :: nxt :: Cpost2 := by
      have h0 := h.settled_split
      rw [← List.append_assoc] at h0
      exact h0.symm
    obtain ⟨hP, hR⟩ := nodup_middle_unique (A ++ S1) S2 Cpre (nxt :: Cpost2)
      hCeq2 (hCeq2 ▸ hnd)
    have hsort := h.sortedS
    unfold chainSorted at hsort
    rw [hR, List.chain'_append] at hsort
    have hpair : isAfterIdx st.events nxt st.current :=
      (List.chain'_cons.mp hsort.2.1).1
    exact is_after_asymm ((compare_positions_gt_iff _ _).mp hgt) hpair
  have hcurA : st.current ∈ A := by
    have hx : st.current ∈ A ++ S :=
      h.settled_split ▸ (List.mem_append.mpr (Or.inr (List.mem_cons_self _ _)))
    rcases List.mem_append.mp hx with hx | hx
    · exact hx
    · exact absurd hx hcurS
  obtain ⟨A₂, hA, hA₂B⟩ := append_eq_cons_split A S Cpre (nxt :: Cpost2)
    st.current h.settled_split.symm hcurA hnd
  have hnxtS : nxt ∉ S := by
    intro hmem
    have h1 := h.aboveS st.current hcurA nxt hmem
    exact is_after_asymm ((compare_positions_gt_iff _ _).mp hgt) h1
  obtain ⟨A₂', rfl, hA₂B2⟩ : ∃ A₂', A₂ = nxt :: A₂' ∧ A₂' ++ S = Cpost2 := by
    cases A₂ with
    | nil =>
        exfalso
        have hSeq : S = nxt :: Cpost2 := by simpa using hA₂B
        exact hnxtS (by rw [hSeq]; exact List.mem_cons_self _ _)
    | cons a₂ A₂' =>
        have hx : a₂ :: (A₂' ++ S) = nxt :: Cpost2 := by rw [← hA₂B]; rfl
        have hx1 : a₂ = nxt := (List.cons.injEq _ _ _ _ ▸ hx).1
        have hx2 : A₂' ++ S = Cpost2 := (List.cons.injEq _ _ _ _ ▸ hx).2
        exact ⟨A₂', by rw [hx1], hx2⟩
  have hnxtA : nxt ∈ A := by
    rw [hA]
    exact List.mem_append.mpr (Or.inr (List.mem_cons_of_mem _ (List.mem_cons_self _ _)))
  have hmemA2 : ∀ a, a ∈ Cpre ++ nxt :: st.current :: A₂' → a ∈ A := by
    intro a ha
    rw [hA]
    simp only [List.mem_append, List.mem_cons] at ha ⊢
    tauto
  have hEcur : ∀ x ∈ E, isAfterIdx st.events st.current x := by
    have hp := chainSorted_pairwise _ _ h.runSorted
    rw [List.pairwise_append] at hp
    intro x hx
    exact hp.2.2 x hx st.current (List.mem_singleton.mpr rfl)
  rw [hstep]
  refine ⟨Cpost2, G2, Cpre ++ nxt :: st.current :: A₂', rfl, ?_⟩
  refine
    { hn := by rw [hlen3]; exact h.hn
      path := ?_
      exit := by rw [hlen3]; exact h.exit
      groups := ?_
      role := Or.inr ⟨Cpre, rfl⟩
      pre_split := by rw [List.append_nil]
      runAbove := ?_
      runSorted := ?_
      noswapF := ?_
      settled_split := ?_
      sortedS := chainSorted_congr st.events ev3 hpos3 S h.sortedS
      aboveS := ?_
      disjFS := ?_
      lastA := ?_
      swapWitness := ?_ }
  · exact (isPathF_append _ ev3 (Cpre ++ [nxt]) (st.current :: Cpost2) _ e).mpr
      ⟨st.current, hpartA, hpartB⟩
  · simp only [List.append_assoc, List.cons_append, List.nil_append]
    exact hG3
  · intro i hi x hx
    rw [List.nil_append, List.mem_singleton] at hi
    rw [hi, hAI]
    rcases List.mem_append.mp hx with hx | hx
    · rw [h.pre_split] at hx
      rcases List.mem_append.mp hx with hx | hx
      · exact h.runAbove st.current
          (List.mem_append.mpr (Or.inr (List.mem_singleton.mpr rfl))) x hx
      · exact hEcur x hx
    · rw [List.mem_singleton.mp hx]
      exact (compare_positions_gt_iff _ _).mp hgt
  · rw [List.nil_append]
    exact List.chain'_singleton _
  · intro hsw
    simp at hsw
  · rw [← hA₂B2]
    simp [List.append_assoc]
  · intro a ha bb hb
    rw [hAI]
    exact h.aboveS a (hmemA2 a ha) bb hb
  · intro x hx
    rcases List.mem_append.mp hx with hx | hx
    · have hxA : x ∈ A := by
        rw [hA]
        exact List.mem_append.mpr (Or.inl hx)
      exact fun hs => hdisjAS hxA hs
    · rw [List.mem_singleton.mp hx]
      exact hnxtS
  · intro hmem
    by_cases hnl : nxt = st.last
    · have hAlast : A.getLast? = some st.last := h.lastA (hnl ▸ hnxtA)
      have hA₂nil : A₂' = [] := by
        cases hA2c : A₂' with
        | nil => rfl
        | cons z Z =>
            exfalso
            have hAlast2 : A.getLast? = (z :: Z).getLast? := by
              rw [hA, hA2c, show Cpre ++ st.current :: nxt :: z :: Z =
                (Cpre ++ [st.current, nxt]) ++ z :: Z by simp]
              exact List.getLast?_append_cons _ _ _
            rw [hAlast] at hAlast2
            have hmem2 : st.last ∈ z :: Z :=
              List.mem_of_mem_getLast? hAlast2.symm
            have hmem3 : nxt ∈ Cpost2 := by
              rw [← hA₂B2, hA2c]
              exact List.mem_append.mpr (Or.inl (by rw [hnl]; exact hmem2))
            exact hnxt_post hmem3
      rw [if_pos hnl, hA₂nil,
        show Cpre ++ nxt :: st.current :: ([] : List ℕ) =
          (Cpre ++ [nxt]) ++ [st.current] by simp]
      exact List.getLast?_concat _
    · rw [if_neg hnl] at hmem ⊢
      have hlastA : st.last ∈ A := hmemA2 st.last hmem
      have hAlast : A.getLast? = some st.last := h.lastA hlastA
      cases hA2c : A₂' with
      | nil =>
          exfalso
          have hAlast2 : A.getLast? = some nxt := by
            rw [hA, hA2c, show Cpre ++ st.current :: nxt :: ([] : List ℕ) =
              (Cpre ++ [st.current]) ++ [nxt] by simp]
            exact List.getLast?_concat _
          rw [hAlast2] at hAlast
          exact hnl (Option.some.injEq _ _ ▸ hAlast)
      | cons z Z =>
          rw [show Cpre ++ nxt :: st.current :: z :: Z =
              (Cpre ++ [nxt, st.current]) ++ z :: Z by simp,
            List.getLast?_append_cons]
          rw [hA, hA2c, show Cpre ++ st.current :: nxt :: z :: Z =
            (Cpre ++ [st.current, nxt]) ++ z :: Z by simp,
            List.getLast?_append_cons] at hAlast
          exact hAlast
  · intro hsw
    exact ⟨st.current, by simp, hcurS⟩

/-- `sibLast` only depends on the sibling links and the length. -/
theorem sibLast_congr (ev evp : List TraversalEvent)
    (hlen : evp.length = ev.length)
    (hsib : ∀ i, (evGet evp i).next_sibling = (evGet ev i).next_sibling) :
    ∀ fuel i, sibLast evp fuel i = sibLast ev fuel i := by
  intro fuel
  induction fuel with
  | zero => intro i; rfl
  | succ n ih =>
      intro i
      simp only [sibLast]
      rw [hsib i, hlen]
      split
      · exact ih _
      · rfl

/-- `sibLast` computes the last node of the sibling chain, given enough fuel. -/
theorem sibLast_path (ev : List TraversalEvent) :
    ∀ (rest : List ℕ) (fuel c s : ℕ),
    sibPath ev c (c :: rest) s → ¬ s < ev.length → rest.length ≤ fuel →
    (c :: rest).getLast? = some (sibLast ev fuel c) := by
  intro rest
  induction rest with
  | nil =>
      intro fuel c s hp hs hf
      obtain ⟨-, hcl, hexit⟩ := hp
      cases fuel with
      | zero => rfl
      | succ n =>
          simp only [sibLast]
          rw [show (evGet ev c).next_sibling = s from hexit, if_neg hs]
          rfl
  | cons r rest2 ih =>
      intro fuel c s hp hs hf
      obtain ⟨-, hcl, hp2⟩ := hp
      have hcr : (evGet ev c).next_sibling = r := hp2.1
      have hrl : r < ev.length := hp2.2.1
      cases fuel with
      | zero => simp at hf
      | succ n =>
          have hih := ih n r s ⟨rfl, hrl, hp2.2.2⟩ hs (by simp at hf; omega)
          simp only [sibLast]
          rw [hcr, if_pos hrl]
          rw [List.getLast?_cons_cons]
          exact hih

/-- Framing for the aligned sibling groups when one sibling link (at a node
outside all the groups considered) changes. -/
theorem forall2_frame_groups (ev evp : List TraversalEvent)
    (hlen : evp.length = ev.length) (t : ℕ)
    (hsib : ∀ i, i ≠ t → (evGet evp i).next_sibling = (evGet ev i).next_sibling)
    (hpos : ∀ i, posAt evp i = posAt ev i) :
    ∀ (C : List ℕ) (G : List (List ℕ)),
    (∀ g ∈ G, ∀ i ∈ g, i ≠ t) →
    List.Forall₂ (fun c g => sibChainOf ev c g ∧ ∀ x ∈ g, posAt ev x = posAt ev c) C G →
    List.Forall₂ (fun c g => sibChainOf evp c g ∧ ∀ x ∈ g, posAt evp x = posAt evp c) C G := by
  intro C
  induction C with
  | nil =>
      intro G ht h
      cases h
      exact List.Forall₂.nil
  | cons c Cr ih =>
      intro G ht h
      obtain ⟨g, G2, hcg, hrest, rfl⟩ := List.forall₂_cons_left_iff.mp h
      refine List.Forall₂.cons ?_
        (ih G2 (fun g2 hg2 => ht g2 (List.mem_cons_of_mem _ hg2)) hrest)
      obtain ⟨⟨s, hsp, hs⟩, hpg⟩ := hcg
      refine ⟨⟨s, ?_, by rw [hlen]; exact hs⟩, ?_⟩
      · exact isPathF_frame _ ev evp hlen g c s
          (fun i hi => hsib i (ht g (List.mem_cons_self _ _) i hi)) hsp
      · intro x hx
        rw [hpos, hpos]
        exact hpg x hx

/-- The `Ordering::Equal` arm preserves the invariant: `next` is spliced
out of the chain and appended to `current`'s sibling group; the run and the
settled suffix are untouched. -/
theorem compareStep_eq_inv (st : SortState) (Cpre Cpost : List ℕ)
    (G : List (List ℕ)) (e : ℕ) (F E A S : List ℕ)
    (h : SortInvP st Cpre Cpost G e F E A S)
    (hnv : (evGet st.events st.current).next_event < st.events.length)
    (heq : compare_positions (evGet st.events st.current).position
      (evGet st.events ((evGet st.events st.current).next_event)).position = .eq) :
    ∃ Cpost2 G2 A2,
      Cpost = ((evGet st.events st.current).next_event) :: Cpost2 ∧
      SortInvP (compareStep st) Cpre Cpost2 G2 e F E A2 S := by
  set nxt := (evGet st.events st.current).next_event with hnxtdef
  have hstep : compareStep st =
      { st with
        events :=
          setNextSibling
            (setNextEvent st.events st.current ((evGet st.events nxt).next_event))
            (sibLast (setNextEvent st.events st.current ((evGet st.events nxt).next_event))
              (setNextEvent st.events st.current ((evGet st.events nxt).next_event)).length
              st.current)
            nxt } := by
    simp only [compareStep]
    rw [heq]
  set ev1 := setNextEvent st.events st.current ((evGet st.events nxt).next_event) with hev1
  set ev2 := setNextSibling ev1 (sibLast ev1 ev1.length st.current) nxt with hev2
  obtain ⟨Cpost2, rfl⟩ : ∃ Cpost2, Cpost = nxt :: Cpost2 := by
    cases Cpost with
    | nil =>
        exfalso
        have hx := nextPath_exit st.events st.first Cpre st.current e h.path
        rw [hnxtdef, hx] at hnv
        exact h.exit hnv
    | cons c rest =>
        have hl := nextPath_link st.events st.first Cpre st.current c rest e h.path
        exact ⟨rest, by rw [hnxtdef, hl]⟩
  have hnd : (Cpre ++ st.current :: nxt :: Cpost2).Nodup :=
    isPathF_nodup _ _ _ _ _ h.exit h.path
  have hndparts := List.nodup_append.mp hnd
  have hdisj : Cpre.Disjoint (st.current :: nxt :: Cpost2) := hndparts.2.2
  have hrestN := hndparts.2.1
  have hcn : st.current ≠ nxt := by
    have h1 := (List.nodup_cons.mp hrestN).1
    intro hx
    exact h1 (hx ▸ List.mem_cons_self _ _)
  have hcur_post : st.current ∉ Cpost2 := by
    have h1 := (List.nodup_cons.mp hrestN).1
    intro hx
    exact h1 (List.mem_cons_of_mem _ hx)
  have hnxt_post : nxt ∉ Cpost2 := (List.nodup_cons.mp (List.nodup_cons.mp hrestN).2).1
  have hcur_pre : st.current ∉ Cpre := fun hx => hdisj hx (List.mem_cons_self _ _)
  have hnxt_pre : nxt ∉ Cpre := fun hx =>
    hdisj hx (List.mem_cons_of_mem _ (List.mem_cons_self _ _))
  have hcl : st.current < st.events.length :=
    isPathF_mem_lt _ _ _ _ _ h.path st.current (by simp)
  have hposeq : (evGet st.events st.current).position =
      (evGet st.events nxt).position := (compare_positions_eq_iff _ _).mp heq
  have hlen1 : ev1.length = st.events.length := by
    rw [hev1, length_setNextEvent]
  have hlen2 : ev2.length = st.events.length := by
    rw [hev2, length_setNextSibling, hlen1]
  have hsib1 : ∀ i, (evGet ev1 i).next_sibling = (evGet st.events i).next_sibling := by
    intro i
    rw [hev1, sib_setNextEvent]
  have hpos2 : ∀ i, posAt ev2 i = posAt st.events i := by
    intro i
    unfold posAt
    rw [hev2, pos_setNextSibling, hev1, pos_setNextEvent]
  have hAI : ∀ i j, isAfterIdx ev2 i j ↔ isAfterIdx st.events i j := by
    intro i j
    unfold isAfterIdx
    rw [hpos2, hpos2]
  have hfe : ∀ i, i ≠ st.current →
      (evGet ev2 i).next_event = (evGet st.events i).next_event := by
    intro i hi
    rw [hev2, nextev_setNextSibling, hev1, nextev_setNextEvent_ne _ _ _ _ hi]
  have hfc : (evGet ev2 st.current).next_event = (evGet st.events nxt).next_event := by
    rw [hev2, nextev_setNextSibling, hev1]
    exact nextev_setNextEvent_eq _ _ _ hcl
  -- split the old chain path
  obtain ⟨b, hp1, hp2⟩ := (isPathF_append (fun ev => ev.next_event) st.events Cpre
    (st.current :: nxt :: Cpost2) st.first e).mp h.path
  obtain ⟨rfl, hcl2, hp3⟩ := hp2
  obtain ⟨-, hnl2, hp4⟩ := hp3
  -- split the aligned sibling groups
  obtain ⟨hfa, hperm⟩ := h.groups
  obtain ⟨Gpre, Grest, hGeq, hFpre, hFrest⟩ :=
    forall2_append_split Cpre (st.current :: nxt :: Cpost2) G hfa
  obtain ⟨gcur, Grest1, hrel_cur, hFrest1, rfl⟩ := List.forall₂_cons_left_iff.mp hFrest
  obtain ⟨gnxt, Gpost, hrel_nxt, hFpost, rfl⟩ := List.forall₂_cons_left_iff.mp hFrest1
  rw [hGeq] at hperm
  have hflat : (Gpre ++ gcur :: gnxt :: Gpost).flatten =
      Gpre.flatten ++ (gcur ++ (gnxt ++ Gpost.flatten)) := by
    simp [List.flatten_append, List.flatten_cons]
  rw [hflat] at hperm
  have hflN : (Gpre.flatten ++ (gcur ++ (gnxt ++ Gpost.flatten))).Nodup :=
    hperm.nodup_iff.mpr (List.nodup_range _)
  have hd1 := List.nodup_append.mp hflN
  have hd2 := List.nodup_append.mp hd1.2.1
  -- the chain walk of `current`'s group
  obtain ⟨scur, hspc, hsc⟩ := hrel_cur.1
  obtain ⟨grest, rfl⟩ : ∃ grest, gcur = st.current :: grest := by
    cases hg : gcur with
    | nil =>
        exfalso
        rw [hg] at hspc
        exact hsc (hspc ▸ hcl)
    | cons a rest =>
        rw [hg] at hspc
        exact ⟨rest, by rw [hspc.1]⟩
  have hglen : grest.length ≤ st.events.length := by
    have hsubp : (st.current :: grest).Subperm (List.range st.events.length) :=
      (((List.sublist_append_left (st.current :: grest) (gnxt ++ Gpost.flatten)).trans
        (List.sublist_append_right Gpre.flatten _)).subperm).trans hperm.subperm
    have := hsubp.length_le
    simp at this
    omega
  -- the spliced sibling link target
  have htailv : (st.current :: grest).getLast? = some (sibLast ev1 ev1.length st.current) := by
    rw [sibLast_congr st.events ev1 hlen1 hsib1, hlen1]
    exact sibLast_path st.events grest st.events.length st.current scur hspc hsc hglen
  obtain ⟨ginit, tailv, hgc⟩ :
      ∃ ginit tailv, st.current :: grest = ginit ++ [tailv] := by
    rcases List.eq_nil_or_concat (st.current :: grest) with hx | ⟨l2, a, hx⟩
    · exact absurd hx (List.cons_ne_nil _ _)
    · exact ⟨l2, a, by rw [hx, List.concat_eq_append]⟩
  have htv : sibLast ev1 ev1.length st.current = tailv := by
    rw [hgc, List.getLast?_concat] at htailv
    exact (Option.some.injEq _ _ ▸ htailv).symm
  have hev2t : ev2 = setNextSibling ev1 tailv nxt := by rw [hev2, htv]
  have htail_mem : tailv ∈ st.current :: grest := by rw [hgc]; simp
  have hsibe : ∀ i, i ≠ tailv →
      (evGet ev2 i).next_sibling = (evGet st.events i).next_sibling := by
    intro i hi
    rw [hev2t, sib_setNextSibling_ne _ _ _ _ hi, hsib1]
  -- bounds for the spliced node: from the old sibling walk
  obtain ⟨b2, hq1, hq2⟩ := (isPathF_append (fun ev => ev.next_sibling) st.events
    ginit [tailv] st.current scur).mp (hgc ▸ hspc)
  obtain ⟨hb2, htvl, -⟩ := hq2
  rw [hb2] at hq1
  have hsibt : (evGet ev2 tailv).next_sibling = nxt := by
    rw [hev2t]
    exact sib_setNextSibling_eq _ _ _ (by rw [hlen1]; exact htvl)
  -- members of other groups differ from tailv
  have htv_in_gcur : tailv ∈ st.current :: grest := htail_mem
  have hne_gnxt : ∀ i ∈ gnxt, i ≠ tailv := by
    intro i hi hx
    exact hd2.2.2 htv_in_gcur (List.mem_append.mpr (Or.inl (hx ▸ hi)))
  have hne_Gpre : ∀ g ∈ Gpre, ∀ i ∈ g, i ≠ tailv := by
    intro g hg i hi hx
    refine hd1.2.2 (List.mem_flatten.mpr ⟨g, hg, hi⟩) ?_
    exact List.mem_append.mpr (Or.inl (hx ▸ htv_in_gcur))
  have hne_Gpost : ∀ g ∈ Gpost, ∀ i ∈ g, i ≠ tailv := by
    intro g hg i hi hx
    refine hd2.2.2 htv_in_gcur (List.mem_append.mpr (Or.inr ?_))
    exact List.mem_flatten.mpr ⟨g, hg, (hx ▸ hi)⟩
  have hne_ginit : ∀ i ∈ ginit, i ≠ tailv := by
    intro i hi hx
    have hnd_gcur : (ginit ++ [tailv]).Nodup := hgc ▸ hd2.1
    exact (List.nodup_append.mp hnd_gcur).2.2 hi (by rw [hx]; simp)
  -- the new combined sibling chain for `current`
  obtain ⟨snxt, hspn, hsn⟩ := hrel_nxt.1
  have hchain_new : sibChainOf ev2 st.current ((st.current :: grest) ++ gnxt) := by
    refine ⟨snxt, ?_, by rw [hlen2]; exact hsn⟩
    rw [hgc, List.append_assoc]
    refine (isPathF_append _ ev2 ginit ([tailv] ++ gnxt) _ _).mpr ⟨tailv, ?_, ?_⟩
    · refine isPathF_frame _ st.events ev2 hlen2 ginit st.current tailv ?_ hq1
      intro i hi
      exact hsibe i (hne_ginit i hi)
    · refine ⟨rfl, by rw [hlen2]; exact htvl, ?_⟩
      show isPathF (fun ev => ev.next_sibling) ev2
        ((evGet ev2 tailv).next_sibling) gnxt snxt
      rw [hsibt]
      refine isPathF_frame _ st.events ev2 hlen2 gnxt nxt snxt ?_ hspn
      intro i hi
      exact hsibe i (hne_gnxt i hi)
  have hpos_new : ∀ x ∈ (st.current :: grest) ++ gnxt,
      posAt ev2 x = posAt ev2 st.current := by
    intro x hx
    rw [hpos2, hpos2]
    rcases List.mem_append.mp hx with hx | hx
    · exact hrel_cur.2 x hx
    · have h1 := hrel_nxt.2 x hx
      unfold posAt at h1 ⊢
      rw [h1, ← hposeq]
  -- the new groups list
  have hG_new : groupsOk ev2 (Cpre ++ st.current :: Cpost2)
      (Gpre ++ ((st.current :: grest) ++ gnxt) :: Gpost) := by
    constructor
    · refine List.rel_append ?_ (List.Forall₂.cons ⟨hchain_new, hpos_new⟩ ?_)
      · exact forall2_frame_groups st.events ev2 hlen2 tailv hsibe hpos2
          Cpre Gpre hne_Gpre hFpre
      · exact forall2_frame_groups st.events ev2 hlen2 tailv hsibe hpos2
          Cpost2 Gpost hne_Gpost hFpost
    · rw [hlen2]
      refine List.Perm.trans ?_ hperm
      simp only [List.flatten_append, List.flatten_cons]
      simp [List.append_assoc]
  -- the new chain path
  have hpath_new : nextPath ev2 st.first (Cpre ++ st.current :: Cpost2) e := by
    refine (isPathF_append _ ev2 Cpre (st.current :: Cpost2) _ e).mpr
      ⟨st.current, ?_, ?_⟩
    · refine isPathF_frame _ st.events ev2 hlen2 Cpre st.first st.current ?_ hp1
      intro i hi
      exact hfe i (fun hx => hcur_pre (hx ▸ hi))
    · refine ⟨rfl, by rw [hlen2]; exact hcl, ?_⟩
      show isPathF (fun ev => ev.next_event) ev2
        ((evGet ev2 st.current).next_event) Cpost2 e
      rw [hfc]
      refine isPathF_frame _ st.events ev2 hlen2 Cpost2 _ e ?_ hp4
      intro i hi
      exact hfe i (fun hx => hcur_post (hx ▸ hi))
  -- the settled suffix does not contain the spliced pair
  have hcurS : st.current ∉ S := by
    intro hmem
    obtain ⟨S1, S2, rfl⟩ := List.append_of_mem hmem
    have hCeq2 : (A ++ S1) ++ st.current :: S2 =
        Cpre ++ st.current :: nxt :: Cpost2 := by
      have h0 := h.settled_split
      rw [← List.append_assoc] at h0
      exact h0.symm
    obtain ⟨hP, hR⟩ := nodup_middle_unique (A ++ S1) S2 Cpre (nxt :: Cpost2)
      hCeq2 (hCeq2 ▸ hnd)
    have hsort := h.sortedS
    unfold chainSorted at hsort
    rw [hR, List.chain'_append] at hsort
    have hpair : isAfterIdx st.events nxt st.current :=
      (List.chain'_cons.mp hsort.2.1).1
    unfold isAfterIdx posAt at hpair
    rw [← hposeq] at hpair
    exact is_after_irrefl _ hpair
  have hcurA : st.current ∈ A := by
    have hx : st.current ∈ A ++ S :=
      h.settled_split ▸ (List.mem_append.mpr (Or.inr (List.mem_cons_self _ _)))
    rcases List.mem_append.mp hx with hx | hx
    · exact hx
    · exact absurd hx hcurS
  obtain ⟨A₂, hA, hA₂B⟩ := append_eq_cons_split A S Cpre (nxt :: Cpost2)
    st.current h.settled_split.symm hcurA hnd
  have hnxtS : nxt ∉ S := by
    intro hmem
    have h1 := h.aboveS st.current hcurA nxt hmem
    unfold isAfterIdx posAt at h1
    rw [← hposeq] at h1
    exact is_after_irrefl _ h1
  obtain ⟨A₂', rfl, hA₂B2⟩ : ∃ A₂', A₂ = nxt :: A₂' ∧ A₂' ++ S = Cpost2 := by
    cases A₂ with
    | nil =>
        exfalso
        have hSeq : S = nxt :: Cpost2 := by simpa using hA₂B
        exact hnxtS (by rw [hSeq]; exact List.mem_cons_self _ _)
    | cons a₂ A₂' =>
        have hx : a₂ :: (A₂' ++ S) = nxt :: Cpost2 := by rw [← hA₂B]; rfl
        have hx1 : a₂ = nxt := (List.cons.injEq _ _ _ _ ▸ hx).1
        have hx2 : A₂' ++ S = Cpost2 := (List.cons.injEq _ _ _ _ ▸ hx).2
        exact ⟨A₂', by rw [hx1], hx2⟩
  have hmemA2 : ∀ a, a ∈ Cpre ++ st.current :: A₂' → a ∈ A := by
    intro a ha
    rw [hA]
    rcases List.mem_append.mp ha with hx | hx
    · exact List.mem_append.mpr (Or.inl hx)
    · rcases List.mem_cons.mp hx with hx | hx
      · exact List.mem_append.mpr (Or.inr (List.mem_cons.mpr (Or.inl hx)))
      · exact List.mem_append.mpr (Or.inr (List.mem_cons.mpr
          (Or.inr (List.mem_cons.mpr (Or.inr hx)))))
  rw [hstep]
  refine ⟨Cpost2, Gpre ++ ((st.current :: grest) ++ gnxt) :: Gpost,
    Cpre ++ st.current :: A₂', rfl, ?_⟩
  refine
    { hn := by rw [hlen2]; exact h.hn
      path := hpath_new
      exit := by rw [hlen2]; exact h.exit
      groups := hG_new
      role := h.role
      pre_split := h.pre_split
      runAbove := ?_
      runSorted := chainSorted_congr st.events ev2 hpos2 _ h.runSorted
      noswapF := h.noswapF
      settled_split := ?_
      sortedS := chainSorted_congr st.events ev2 hpos2 S h.sortedS
      aboveS := ?_
      disjFS := h.disjFS
      lastA := ?_
      swapWitness := ?_ }
  · intro i hi x hx
    rw [hAI]
    exact h.runAbove i hi x hx
  · rw [← hA₂B2]
    simp [List.append_assoc]
  · intro a ha bb hb
    rw [hAI]
    exact h.aboveS a (hmemA2 a ha) bb hb
  · intro hmem
    have hlastA : st.last ∈ A := hmemA2 st.last hmem
    have hAlast : A.getLast? = some st.last := h.lastA hlastA
    cases hA2c : A₂' with
    | nil =>
        exfalso
        have hAlast2 : A.getLast? = some nxt := by
          rw [hA, hA2c, show Cpre ++ st.current :: nxt :: ([] : List ℕ) =
            (Cpre ++ [st.current]) ++ [nxt] by simp]
          exact List.getLast?_concat _
        rw [hAlast2] at hAlast
        have hln : nxt = st.last := Option.some.injEq _ _ ▸ hAlast
        rw [hA2c] at hmem
        rw [← hln] at hmem
        rcases List.mem_append.mp hmem with hx | hx
        · exact hnxt_pre hx
        · rcases List.mem_cons.mp hx with hx | hx
          · exact hcn hx.symm
          · cases hx
    | cons z Z =>
        rw [show Cpre ++ st.current :: z :: Z =
            (Cpre ++ [st.current]) ++ z :: Z by simp,
          List.getLast?_append_cons]
        rw [hA, hA2c, show Cpre ++ st.current :: nxt :: z :: Z =
          (Cpre ++ [st.current, nxt]) ++ z :: Z by simp,
          List.getLast?_append_cons] at hAlast
        exact hAlast
  · intro hsw
    obtain ⟨x, hx1, hx2⟩ := h.swapWitness hsw
    exact ⟨x, hx1, hx2⟩

theorem append_eq_append_disj (F E A S1 : List ℕ) (h : F ++ E = A ++ S1)
    (hdisj : ∀ x ∈ F, x ∉ S1) : ∃ M, A = F ++ M ∧ E = M ++ S1 := by
  rcases List.append_eq_append_iff.mp h with ⟨M, h1, h2⟩ | ⟨c, h1, h2⟩
  · exact ⟨M, h1, h2⟩
  · cases c with
    | nil =>
        refine ⟨[], ?_, ?_⟩
        · rw [h1]
          simp
        · rw [List.nil_append]
          rw [List.nil_append] at h2
          exact h2.symm
    | cons x xs =>
        exfalso
        refine hdisj x ?_ ?_
        · rw [h1]
          exact List.mem_append.mpr (Or.inr (List.mem_cons_self _ _))
        · rw [h2]
          exact List.mem_cons_self _ _

theorem concat_eq_concat {X Z : List ℕ} {a b : ℕ} (h : X ++ [a] = Z ++ [b]) :
    X = Z ∧ a = b := by
  have h2 := List.append_inj' h rfl
  exact ⟨h2.1, by simpa using h2.2⟩

/-- Gluing a sorted prefix ending in `c` with a sorted run starting at `c`. -/
theorem chainSorted_glue (ev : List TraversalEvent) (X : List ℕ) (c : ℕ)
    (T : List ℕ) (h1 : chainSorted ev (X ++ [c])) (h2 : chainSorted ev (c :: T)) :
    chainSorted ev (X ++ c :: T) := by
  unfold chainSorted at *
  rw [show X ++ c :: T = (X ++ [c]) ++ T by simp, List.chain'_append]
  refine ⟨h1, h2.tail, ?_⟩
  intro x hx y hy
  rw [List.getLast?_concat] at hx
  cases hx
  have h3 := (List.chain'_cons'.mp h2).1
  exact h3 y hy

/-- A node strictly below a sorted run prepends to it. -/
theorem chainSorted_cons_of_above (ev : List TraversalEvent) (c : ℕ)
    (T : List ℕ) (habove : ∀ b ∈ T, isAfterIdx ev b c)
    (h : chainSorted ev T) : chainSorted ev (c :: T) := by
  unfold chainSorted at *
  refine List.chain'_cons'.mpr ⟨?_, h⟩
  intro y hy
  exact habove y (List.mem_of_mem_head? hy)

/-- The cursor is strictly after everything in the chain prefix. -/
theorem sortInvP_cur_above (st : SortState) (Cpre Cpost : List ℕ)
    (G : List (List ℕ)) (e : ℕ) (F E A S : List ℕ)
    (h : SortInvP st Cpre Cpost G e F E A S) :
    ∀ x ∈ Cpre, isAfterIdx st.events st.current x := by
  intro x hx
  rw [h.pre_split] at hx
  rcases List.mem_append.mp hx with hx | hx
  · exact h.runAbove st.current
      (List.mem_append.mpr (Or.inr (List.mem_singleton.mpr rfl))) x hx
  · have hp := chainSorted_pairwise _ _ h.runSorted
    rw [List.pairwise_append] at hp
    exact hp.2.2 x hx st.current (List.mem_singleton.mpr rfl)

/-- Where the settled suffix sits when the cursor reached `last`. -/
theorem settled_split_cases (st : SortState) (Cpre Cpost : List ℕ)
    (G : List (List ℕ)) (e : ℕ) (F E A S : List ℕ)
    (h : SortInvP st Cpre Cpost G e F E A S) (hlast : st.current = st.last) :
    (A = Cpre ++ [st.current] ∧ S = Cpost) ∨
    (∃ S1 S2p, S = S1 ++ st.current :: S2p ∧ Cpre = A ++ S1 ∧ Cpost = S2p) := by
  have hnd : (Cpre ++ st.current :: Cpost).Nodup :=
    isPathF_nodup _ _ _ _ _ h.exit h.path
  have hcurC : st.current ∈ A ++ S :=
    h.settled_split ▸ (List.mem_append.mpr (Or.inr (List.mem_cons_self _ _)))
  rcases List.mem_append.mp hcurC with hcur | hcur
  · left
    obtain ⟨A₂, hA, hA₂B⟩ := append_eq_cons_split A S Cpre Cpost
      st.current h.settled_split.symm hcur hnd
    have hgl : A.getLast? = some st.current := by
      rw [hlast]
      exact h.lastA (hlast ▸ hcur)
    cases hA2c : A₂ with
    | nil =>
        rw [hA2c] at hA hA₂B
        rw [List.nil_append] at hA₂B
        exact ⟨hA, hA₂B⟩
    | cons z Z =>
        exfalso
        have hAl2 : A.getLast? = (z :: Z).getLast? := by
          rw [hA, hA2c, show Cpre ++ st.current :: z :: Z =
            (Cpre ++ [st.current]) ++ z :: Z by simp]
          exact List.getLast?_append_cons _ _ _
        rw [hgl] at hAl2
        have hmem : st.current ∈ z :: Z := List.mem_of_mem_getLast? hAl2.symm
        have hmem2 : st.current ∈ Cpost := by
          rw [← hA₂B, hA2c]
          exact List.mem_append.mpr (Or.inl hmem)
        have h1 := (List.nodup_append.mp hnd).2.1
        exact (List.nodup_cons.mp h1).1 hmem2
  · right
    obtain ⟨S1, S2p, rfl⟩ := List.append_of_mem hcur
    have hCeq : (A ++ S1) ++ st.current :: S2p = Cpre ++ st.current :: Cpost := by
      have h0 := h.settled_split
      rw [← List.append_assoc] at h0
      exact h0.symm
    obtain ⟨hP, hR⟩ := nodup_middle_unique (A ++ S1) S2p Cpre Cpost
      hCeq (hCeq ▸ hnd)
    exact ⟨S1, S2p, rfl, hP.symm, hR.symm⟩

/-- Where the settled suffix sits when the cursor reached the end of the
chain. -/
theorem settled_split_tail (st : SortState) (Cpre : List ℕ)
    (G : List (List ℕ)) (e : ℕ) (F E A S : List ℕ)
    (h : SortInvP st Cpre [] G e F E A S) :
    (S = [] ∧ A = Cpre ++ [st.current]) ∨
    (∃ S1, S = S1 ++ [st.current] ∧ Cpre = A ++ S1) := by
  rcases List.eq_nil_or_concat S with hS | ⟨S1, a, hS⟩
  · left
    refine ⟨hS, ?_⟩
    have h0 := h.settled_split
    rw [hS, List.append_nil] at h0
    exact h0.symm
  · right
    rw [List.concat_eq_append] at hS
    have h0 := h.settled_split
    rw [hS, ← List.append_assoc] at h0
    have h1 : Cpre ++ [st.current] = (A ++ S1) ++ [a] := h0
    obtain ⟨h2, h3⟩ := concat_eq_concat h1
    exact ⟨S1, by rw [hS, h3], h2⟩

/-- Exit soundness: when the loop returns, the whole chain is strictly
sorted. -/
theorem sortStep_exit_sorted (st : SortState) (Cpre Cpost : List ℕ)
    (G : List (List ℕ)) (e : ℕ) (F E A S : List ℕ)
    (h : SortInvP st Cpre Cpost G e F E A S)
    (hcond : st.current = st.last ∨ ¬ st.current < st.events.length ∨
      ¬ (evGet st.events st.current).next_event < st.events.length)
    (hdone : st.swapped = false ∨ st.prev = st.first) :
    chainSorted st.events (Cpre ++ st.current :: Cpost) := by
  have hnd : (Cpre ++ st.current :: Cpost).Nodup :=
    isPathF_nodup _ _ _ _ _ h.exit h.path
  have hcl : st.current < st.events.length :=
    isPathF_mem_lt _ _ _ _ _ h.path st.current (by simp)
  have hCL : st.current = st.last ∨ Cpost = [] := by
    rcases hcond with hc | hc | hc
    · exact Or.inl hc
    · exact absurd hcl hc
    · right
      cases hCp : Cpost with
      | nil => rfl
      | cons c rest =>
          exfalso
          rw [hCp] at h
          have hl := nextPath_link st.events st.first Cpre st.current c rest e h.path
          refine hc ?_
          rw [hl]
          refine isPathF_mem_lt _ _ _ _ _ h.path c ?_
          exact List.mem_append.mpr (Or.inr (List.mem_cons_of_mem _ (List.mem_cons_self _ _)))
  -- the part up to the cursor is sorted
  have hpre_sorted : chainSorted st.events (Cpre ++ [st.current]) := by
    rcases hdone with hswf | hpfe
    · have hF := h.noswapF hswf
      have hE : Cpre = E := by rw [h.pre_split, hF, List.nil_append]
      rw [hE]
      exact h.runSorted
    · rcases h.role with ⟨hc, hpc⟩ | ⟨Cp, hCeq⟩
      · rw [hc, List.nil_append]
        exact List.chain'_singleton _
      · have hCp_nil : Cp = [] := by
          cases hCp : Cp with
          | nil => rfl
          | cons w W =>
              exfalso
              have hf : st.first = w := by
                have hp := h.path
                rw [hCeq, hCp] at hp
                exact nextPath_head _ _ _ _ _ hp
              have hndpre : (Cp ++ [st.prev]).Nodup :=
                hCeq ▸ (List.nodup_append.mp hnd).1
              rw [hCp] at hndpre
              have hwp : w ≠ st.prev := by
                intro hx
                have h1 := (List.nodup_cons.mp hndpre).1
                exact h1 (hx ▸ List.mem_append.mpr (Or.inr (List.mem_cons_self _ _)))
              exact hwp (by rw [← hf, ← hpfe])
        have hCpre1 : Cpre = [st.first] := by
          rw [hCeq, hCp_nil, List.nil_append, hpfe]
        rw [hCpre1]
        refine List.chain'_cons.mpr ⟨?_, List.chain'_singleton _⟩
        exact sortInvP_cur_above st Cpre Cpost G e F E A S h st.first
          (by rw [hCpre1]; exact List.mem_cons_self _ _)
  -- the part from the cursor on is sorted
  have hpost_sorted : chainSorted st.events (st.current :: Cpost) := by
    rcases hCL with hlast | hCp
    · rcases settled_split_cases st Cpre Cpost G e F E A S h hlast with
        ⟨hA, hS⟩ | ⟨S1, S2p, hS, hP, hR⟩
      · refine chainSorted_cons_of_above _ _ _ ?_ (hS ▸ h.sortedS)
        intro bb hb
        exact h.aboveS st.current
          (by rw [hA]; exact List.mem_append.mpr (Or.inr (List.mem_cons_self _ _)))
          bb (hS ▸ hb)
      · rw [hR]
        have hs := h.sortedS
        rw [hS] at hs
        unfold chainSorted at hs ⊢
        rw [List.chain'_append] at hs
        exact hs.2.1
    · rw [hCp]
      exact List.chain'_singleton _
  exact chainSorted_glue st.events Cpre st.current Cpost hpre_sorted hpost_sorted

/-- Rewinding with `swapped` set and a shrunken range: the invariant is
re-established for the next pass, and the settled suffix strictly grows. -/
theorem sortStep_rewind_continue (st : SortState) (Cpre Cpost : List ℕ)
    (G : List (List ℕ)) (e : ℕ) (F E A S : List ℕ)
    (h : SortInvP st Cpre Cpost G e F E A S)
    (hcond : st.current = st.last ∨ ¬ st.current < st.events.length ∨
      ¬ (evGet st.events st.current).next_event < st.events.length)
    (hsw : st.swapped = true) (hpf : ¬ st.prev = st.first) :
    ∃ Y S2,
      SortInvP { st with last := st.prev, prev := st.first, current := st.first, swapped := false } [] Y G e [] [] F S2 ∧
      S.length + 1 ≤ S2.length ∧
      Y.length + 1 = Cpre.length + 1 + Cpost.length ∧
      ¬ st.first = st.prev ∧
      (evGet st.events st.first).next_event < st.events.length := by
  have hnd : (Cpre ++ st.current :: Cpost).Nodup :=
    isPathF_nodup _ _ _ _ _ h.exit h.path
  have hcl : st.current < st.events.length :=
    isPathF_mem_lt _ _ _ _ _ h.path st.current (by simp)
  have hCL : st.current = st.last ∨ Cpost = [] := by
    rcases hcond with hc | hc | hc
    · exact Or.inl hc
    · exact absurd hcl hc
    · right
      cases hCp : Cpost with
      | nil => rfl
      | cons c rest =>
          exfalso
          rw [hCp] at h
          have hl := nextPath_link st.events st.first Cpre st.current c rest e h.path
          refine hc ?_
          rw [hl]
          refine isPathF_mem_lt _ _ _ _ _ h.path c ?_
          exact List.mem_append.mpr
            (Or.inr (List.mem_cons_of_mem _ (List.mem_cons_self _ _)))
  obtain ⟨Cp, hCeq⟩ : ∃ Cp, Cpre = Cp ++ [st.prev] := by
    rcases h.role with ⟨hc, hpc⟩ | hr
    · exfalso
      have hf : st.first = st.current := by
        have hp := h.path
        rw [hc] at hp
        exact nextPath_head _ _ _ _ _ hp
      exact hpf (by rw [hpc, ← hf])
    · exact hr
  obtain ⟨y, Y, hY⟩ : ∃ y Y, Cpre ++ st.current :: Cpost = y :: Y := by
    rw [hCeq]
    cases Cp with
    | nil => exact ⟨st.prev, _, rfl⟩
    | cons w W => exact ⟨w, _, rfl⟩
  have hfy : st.first = y := by
    have hp := h.path
    rw [hY] at hp
    exact nextPath_head _ _ _ _ _ hp
  have hYC : Cpre ++ st.current :: Cpost = st.first :: Y := by rw [hY, hfy]
  have hYlen : Y.length + 1 = Cpre.length + 1 + Cpost.length := by
    have hlen := congrArg List.length hYC
    simp at hlen
    omega
  obtain ⟨y2, Y2, hY2⟩ : ∃ y2 Y2, Y = y2 :: Y2 := by
    cases hYc : Y with
    | nil =>
        exfalso
        have hlen := congrArg List.length hYC
        rw [hYc] at hlen
        simp at hlen
        rw [hCeq] at hlen
        simp at hlen
        omega
    | cons a b => exact ⟨a, b, rfl⟩
  have hnext_first : (evGet st.events st.first).next_event = y2 := by
    have hp := h.path
    rw [hYC, hY2] at hp
    exact nextPath_link st.events st.first [] st.first y2 Y2 e hp
  have hnfv : (evGet st.events st.first).next_event < st.events.length := by
    rw [hnext_first]
    refine isPathF_mem_lt _ _ _ _ _ h.path y2 ?_
    rw [hYC, hY2]
    exact List.mem_cons_of_mem _ (List.mem_cons_self _ _)
  have hlastA_new : st.prev ∈ F → F.getLast? = some st.prev := by
    intro hmem
    rcases List.eq_nil_or_concat E with hE | ⟨E1, q, hEq⟩
    · have hFC : F = Cp ++ [st.prev] := by
        rw [← hCeq, h.pre_split, hE, List.append_nil]
      rw [hFC]
      exact List.getLast?_concat _
    · exfalso
      rw [List.concat_eq_append] at hEq
      have h1 : (F ++ E1) ++ [q] = Cp ++ [st.prev] := by
        rw [List.append_assoc, ← hEq, ← h.pre_split, hCeq]
      obtain ⟨-, hq⟩ := concat_eq_concat h1
      have hndpre : Cpre.Nodup := (List.nodup_append.mp hnd).1
      rw [h.pre_split] at hndpre
      have hdFE := (List.nodup_append.mp hndpre).2.2
      refine hdFE hmem ?_
      rw [hEq]
      exact List.mem_append.mpr
        (Or.inr (by rw [hq]; exact List.mem_singleton.mpr rfl))
  have hM : ∀ (S1 : List ℕ), Cpre = A ++ S1 → (∀ x ∈ S1, x ∈ S) →
      st.current ∈ S → S1.length + 1 ≤ E.length := by
    intro S1 hP hS1S hcurS
    have hsplit2 : F ++ E = A ++ S1 := h.pre_split.symm.trans hP
    obtain ⟨M, hA2, hE2⟩ := append_eq_append_disj F E A S1 hsplit2
      (fun x hx hxs => h.disjFS hx (hS1S x hxs))
    obtain ⟨w, hw1, hw2⟩ := h.swapWitness hsw
    have hwE : w ∈ E := by
      rcases List.mem_append.mp hw1 with hx | hx
      · exact hx
      · exact absurd (by rw [List.mem_singleton.mp hx]; exact hcurS) hw2
    have hwM : w ∈ M := by
      rw [hE2] at hwE
      rcases List.mem_append.mp hwE with hx | hx
      · exact hx
      · exact absurd (hS1S w hx) hw2
    have hlen2 := congrArg List.length hE2
    simp at hlen2
    cases M with
    | nil => cases hwM
    | cons m M' =>
        simp at hlen2
        omega
  -- the common invariant components of the rewound state
  have hcommon : ∀ S2 : List ℕ,
      Cpre ++ st.current :: Cpost = F ++ S2 →
      chainSorted st.events S2 →
      (∀ a ∈ F, ∀ b ∈ S2, isAfterIdx st.events b a) →
      SortInvP { st with last := st.prev, prev := st.first, current := st.first, swapped := false } [] Y G e [] [] F S2 := by
    intro S2 hsplit hsorted habove
    refine
      { hn := h.hn
        path := ?_
        exit := h.exit
        groups := ?_
        role := Or.inl ⟨rfl, rfl⟩
        pre_split := rfl
        runAbove := ?_
        runSorted := ?_
        noswapF := fun _ => rfl
        settled_split := ?_
        sortedS := hsorted
        aboveS := habove
        disjFS := ?_
        lastA := hlastA_new
        swapWitness := ?_ }
    · show nextPath st.events st.first ([] ++ st.first :: Y) e
      rw [List.nil_append, ← hYC]
      exact h.path
    · show groupsOk st.events ([] ++ st.first :: Y) G
      rw [List.nil_append, ← hYC]
      exact h.groups
    · intro i hi x hx
      cases hx
    · show chainSorted st.events ([] ++ [st.first])
      rw [List.nil_append]
      exact List.chain'_singleton _
    · show ([] : List ℕ) ++ st.first :: Y = F ++ S2
      rw [List.nil_append, ← hYC]
      exact hsplit
    · intro a ha
      cases ha
    · intro hx
      simp at hx
  rcases hCL with hlast | hCpost
  · rcases settled_split_cases st Cpre Cpost G e F E A S h hlast with
      ⟨hA, hS⟩ | ⟨S1, S2p, hS, hP, hR⟩
    · -- the cursor is the final element of A; S = Cpost
      refine ⟨Y, E ++ st.current :: S, ?_, ?_, hYlen, fun hx => hpf hx.symm, hnfv⟩
      · refine hcommon (E ++ st.current :: S) ?_ ?_ ?_
        · rw [h.pre_split, List.append_assoc, hS]
        · refine chainSorted_glue st.events E st.current S h.runSorted ?_
          refine chainSorted_cons_of_above st.events st.current S ?_ h.sortedS
          intro bb hb
          refine h.aboveS st.current ?_ bb hb
          rw [hA]
          exact List.mem_append.mpr (Or.inr (List.mem_cons_self _ _))
        · intro a ha bb hb
          simp only [List.mem_append, List.mem_cons] at hb
          rcases hb with hb | hb | hb
          · exact h.runAbove bb (List.mem_append.mpr (Or.inl hb)) a ha
          · rw [hb]
            exact h.runAbove st.current
              (List.mem_append.mpr (Or.inr (List.mem_singleton.mpr rfl))) a ha
          · refine h.aboveS a ?_ bb hb
            rw [hA]
            refine List.mem_append.mpr (Or.inl ?_)
            rw [h.pre_split]
            exact List.mem_append.mpr (Or.inl ha)
      · simp
    · -- the cursor is inside S
      refine ⟨Y, E ++ st.current :: S2p, ?_, ?_, hYlen, fun hx => hpf hx.symm, hnfv⟩
      · refine hcommon (E ++ st.current :: S2p) ?_ ?_ ?_
        · rw [h.pre_split, List.append_assoc, hR]
        · refine chainSorted_glue st.events E st.current S2p h.runSorted ?_
          have hs := h.sortedS
          rw [hS] at hs
          unfold chainSorted at hs ⊢
          rw [List.chain'_append] at hs
          exact hs.2.1
        · intro a ha bb hb
          have haA : a ∈ A := by
            have haC : a ∈ A ++ S1 := by
              rw [← hP, h.pre_split]
              exact List.mem_append.mpr (Or.inl ha)
            rcases List.mem_append.mp haC with hx | hx
            · exact hx
            · exact absurd (hS ▸ List.mem_append.mpr (Or.inl hx) :
                a ∈ S) (fun hc => h.disjFS ha hc)
          simp only [List.mem_append, List.mem_cons] at hb
          rcases hb with hb | hb | hb
          · exact h.runAbove bb (List.mem_append.mpr (Or.inl hb)) a ha
          · rw [hb]
            exact h.runAbove st.current
              (List.mem_append.mpr (Or.inr (List.mem_singleton.mpr rfl))) a ha
          · refine h.aboveS a haA bb ?_
            rw [hS]
            exact List.mem_append.mpr (Or.inr (List.mem_cons_of_mem _ hb))
      · have hMS := hM S1 hP
          (fun x hx => by rw [hS]; exact List.mem_append.mpr (Or.inl hx))
          (by rw [hS]; exact List.mem_append.mpr (Or.inr (List.mem_cons_self _ _)))
        have hSlen := congrArg List.length hS
        simp at hSlen ⊢
        omega
  · subst hCpost
    rcases settled_split_tail st Cpre G e F E A S h with ⟨hS, hA⟩ | ⟨S1, hS, hP⟩
    · refine ⟨Y, E ++ [st.current], ?_, ?_, hYlen, fun hx => hpf hx.symm, hnfv⟩
      · refine hcommon (E ++ [st.current]) ?_ h.runSorted ?_
        · rw [h.pre_split, List.append_assoc]
        · intro a ha bb hb
          exact h.runAbove bb hb a ha
      · rw [hS]
        simp
    · refine ⟨Y, E ++ [st.current], ?_, ?_, hYlen, fun hx => hpf hx.symm, hnfv⟩
      · refine hcommon (E ++ [st.current]) ?_ h.runSorted ?_
        · rw [h.pre_split, List.append_assoc]
        · intro a ha bb hb
          exact h.runAbove bb hb a ha
      · have hMS := hM S1 hP
          (fun x hx => by rw [hS]; exact List.mem_append.mpr (Or.inl hx))
          (by rw [hS]; exact List.mem_append.mpr (Or.inr (List.mem_singleton.mpr rfl)))
        have hSlen := congrArg List.length hS
        simp at hSlen ⊢
        omega

/-- Length bounds extracted from the invariant: the chain fits in the
event array, and the settled suffix fits in the chain. -/
theorem sortInvP_c_le (st : SortState) (Cpre Cpost : List ℕ)
    (G : List (List ℕ)) (e : ℕ) (F E A S : List ℕ)
    (h : SortInvP st Cpre Cpost G e F E A S) :
    Cpre.length + 1 + Cpost.length ≤ st.events.length ∧
    S.length ≤ Cpre.length + 1 + Cpost.length := by
  have hnd : (Cpre ++ st.current :: Cpost).Nodup :=
    isPathF_nodup _ _ _ _ _ h.exit h.path
  have h1 := nodup_lt_length_le (Cpre ++ st.current :: Cpost) st.events.length hnd
    (fun x hx => isPathF_mem_lt _ _ _ _ _ h.path x hx)
  have h2 := congrArg List.length h.settled_split
  simp at h1 h2
  omega

/-- One comparison step never changes the number of events. -/
theorem compareStep_events_length (st : SortState) :
    (compareStep st).events.length = st.events.length := by
  simp only [compareStep]
  split
  · rfl
  · simp only [length_setNextEvent]
    split
    · simp only [length_setNextEvent]
    · rfl
  · simp only [length_setNextSibling, length_setNextEvent]

/-- One comparison step preserves the invariant; the progress counter
within the pass strictly advances and the pass counter never regresses. -/
theorem compareStep_cases (st : SortState) (Cpre Cpost : List ℕ)
    (G : List (List ℕ)) (e : ℕ) (F E A S : List ℕ)
    (h : SortInvP st Cpre Cpost G e F E A S)
    (hnv : (evGet st.events st.current).next_event < st.events.length) :
    ∃ Cpre2 Cpost2 G2 F2 E2 A2 S2,
      SortInvP (compareStep st) Cpre2 Cpost2 G2 e F2 E2 A2 S2 ∧
      S.length + (st.events.length - (Cpre.length + 1 + Cpost.length)) ≤
        S2.length + (st.events.length - (Cpre2.length + 1 + Cpost2.length)) ∧
      Cpre.length + 2 * (st.events.length - (Cpre.length + 1 + Cpost.length)) + 1 ≤
        Cpre2.length + 2 * (st.events.length - (Cpre2.length + 1 + Cpost2.length)) := by
  have hb := sortInvP_c_le st Cpre Cpost G e F E A S h
  cases hcmp : compare_positions (evGet st.events st.current).position
      (evGet st.events ((evGet st.events st.current).next_event)).position with
  | lt =>
      obtain ⟨Cpost2, hCeq, hinv⟩ :=
        compareStep_lt_inv st Cpre Cpost G e F E A S h hnv hcmp
      have hq : Cpost.length = Cpost2.length + 1 := by rw [hCeq]; simp
      refine ⟨Cpre ++ [st.current], Cpost2, G, F, E ++ [st.current], A, S,
        hinv, ?_, ?_⟩
      · simp
        omega
      · simp
        omega
  | gt =>
      obtain ⟨Cpost2, G2, A2, hCeq, hinv⟩ :=
        compareStep_gt_inv st Cpre Cpost G e F E A S h hnv hcmp
      have hq : Cpost.length = Cpost2.length + 1 := by rw [hCeq]; simp
      refine ⟨Cpre ++ [(evGet st.events st.current).next_event], Cpost2, G2,
        Cpre ++ [(evGet st.events st.current).next_event], [], A2, S,
        hinv, ?_, ?_⟩
      · simp
        omega
      · simp
        omega
  | eq =>
      obtain ⟨Cpost2, G2, A2, hCeq, hinv⟩ :=
        compareStep_eq_inv st Cpre Cpost G e F E A S h hnv hcmp
      have hq : Cpost.length = Cpost2.length + 1 := by rw [hCeq]; simp
      refine ⟨Cpre, Cpost2, G2, F, E, A2, S, hinv, ?_, ?_⟩
      · omega
      · omega

/-- The sort loop, started anywhere in the invariant, reaches the `return`
within the stated fuel, with a sorted result.  The fuel accounting is
quadratic: `k` bounds the remaining passes, `m` the remaining steps of the
current pass. -/
theorem sortRun_ok : ∀ (fuel k m : ℕ) (st : SortState)
    (Cpre Cpost : List ℕ) (G : List (List ℕ)) (e : ℕ) (F E A S : List ℕ),
    SortInvP st Cpre Cpost G e F E A S →
    st.events.length + 1 ≤
      S.length + (st.events.length - (Cpre.length + 1 + Cpost.length)) + k →
    2 * st.events.length + 1 ≤
      Cpre.length + 2 * (st.events.length - (Cpre.length + 1 + Cpost.length)) + m →
    k * (2 * st.events.length + 3) + m < fuel →
    ∃ res, sortRun fuel st = some res ∧ SortedEvents res.events res.first := by
  intro fuel
  induction fuel with
  | zero =>
      intro k m st Cpre Cpost G e F E A S h h1 h2 h3
      omega
  | succ f ih =>
      intro k m st Cpre Cpost G e F E A S h h1 h2 h3
      have hb := sortInvP_c_le st Cpre Cpost G e F E A S h
      by_cases hrw : st.current = st.last ∨ ¬ st.current < st.events.length ∨
          ¬ (evGet st.events st.current).next_event < st.events.length
      · by_cases hex : st.swapped = false ∨ st.prev = st.first
        · -- the loop returns here
          have hstep : sortStep st = Sum.inr { st with last := st.prev, prev := st.first, current := st.first } := by
            unfold sortStep
            rw [if_pos hrw, if_pos hex]
          refine ⟨{ st with last := st.prev, prev := st.first, current := st.first }, ?_, ?_⟩
          · show sortRun (f + 1) st = some _
            simp only [sortRun]
            rw [hstep]
          · exact ⟨Cpre ++ st.current :: Cpost, G, e, h.path, h.exit,
              sortStep_exit_sorted st Cpre Cpost G e F E A S h hrw hex, h.groups⟩
        · -- rewind and continue with the shrunken range
          push_neg at hex
          have hsw : st.swapped = true := by
            cases hs : st.swapped
            · exact absurd hs hex.1
            · rfl
          obtain ⟨Y, S2, hinv2, hgrow, hYlen, hne2, hnv2⟩ :=
            sortStep_rewind_continue st Cpre Cpost G e F E A S h hrw hsw hex.2
          have hstep : sortStep st = Sum.inl (compareStep { st with last := st.prev, prev := st.first, current := st.first, swapped := false }) := by
            unfold sortStep
            rw [if_pos hrw, if_neg (by push_neg; exact hex)]
          obtain ⟨Cpre3, Cpost3, G3, F3, E3, A3, S3, hinv3, hσ, hφ⟩ :=
            compareStep_cases _ [] Y G e [] [] F S2 hinv2 hnv2
          have hb3 := sortInvP_c_le _ Cpre3 Cpost3 G3 e F3 E3 A3 S3 hinv3
          have hlen3 : (compareStep { st with last := st.prev, prev := st.first, current := st.first, swapped := false }).events.length = st.events.length := compareStep_events_length _
          cases k with
          | zero =>
              exfalso
              omega
          | succ kp =>
              rw [hlen3] at hb3
              dsimp only at hσ hφ
              simp only [List.length_nil] at hσ hφ
              rw [Nat.succ_mul] at h3
              obtain ⟨res, hres, hsorted⟩ := ih kp (2 * st.events.length + 1) _
                Cpre3 Cpost3 G3 e F3 E3 A3 S3 hinv3 (by rw [hlen3]; omega)
                (by rw [hlen3]; omega) (by rw [hlen3]; omega)
              refine ⟨res, ?_, hsorted⟩
              show sortRun (f + 1) st = some res
              simp only [sortRun]
              rw [hstep]
              exact hres
      · -- ordinary comparison step
        have hstep : sortStep st = Sum.inl (compareStep st) := by
          unfold sortStep
          rw [if_neg hrw]
        push_neg at hrw
        obtain ⟨hne, hcv, hnv⟩ := hrw
        obtain ⟨Cpre3, Cpost3, G3, F3, E3, A3, S3, hinv3, hσ, hφ⟩ :=
          compareStep_cases st Cpre Cpost G e F E A S h hnv
        have hb3 := sortInvP_c_le _ Cpre3 Cpost3 G3 e F3 E3 A3 S3 hinv3
        have hlen3 : (compareStep st).events.length = st.events.length :=
          compareStep_events_length st
        rw [hlen3] at hb3
        obtain ⟨res, hres, hsorted⟩ := ih k (m - 1) _
          Cpre3 Cpost3 G3 e F3 E3 A3 S3 hinv3 (by rw [hlen3]; omega)
          (by rw [hlen3]; omega) (by rw [hlen3]; omega)
        refine ⟨res, ?_, hsorted⟩
        show sortRun (f + 1) st = some res
        simp only [sortRun]
        rw [hstep]
        exact hres

theorem foldl_push_events : ∀ (ps : List Point) (t : Traversal),
    (ps.foldl Traversal.push t).events = t.events ++ pushedEvents t.events.length ps := by
  intro ps
  induction ps with
  | nil => intro t; simp [pushedEvents]
  | cons p ps ih =>
      intro t
      rw [List.foldl_cons, ih]
      simp [Traversal.push, pushedEvents, List.append_assoc]

theorem foldl_push_first : ∀ (ps : List Point) (t : Traversal),
    (ps.foldl Traversal.push t).first = t.first := by
  intro ps
  induction ps with
  | nil => intro t; rfl
  | cons p ps ih => intro t; rw [List.foldl_cons, ih]; rfl

theorem foldl_push_sorted : ∀ (ps : List Point) (t : Traversal),
    t.sorted = false → (ps.foldl Traversal.push t).sorted = false := by
  intro ps
  induction ps with
  | nil => intro t h; exact h
  | cons p ps ih => intro t h; rw [List.foldl_cons]; exact ih _ rfl

theorem pushedEvents_length : ∀ (ps : List Point) (k : ℕ),
    (pushedEvents k ps).length = ps.length := by
  intro ps
  induction ps with
  | nil => intro k; rfl
  | cons p ps ih => intro k; simp [pushedEvents, ih]

theorem pushedEvents_link : ∀ (ps : List Point) (k i : ℕ), i < ps.length →
    (evGet (pushedEvents k ps) i).next_event = k + i + 1 ∧
    (evGet (pushedEvents k ps) i).next_sibling = usizeMax := by
  intro ps
  induction ps with
  | nil => intro k i h; simp at h
  | cons p ps ih =>
      intro k i h
      cases i with
      | zero => exact ⟨rfl, rfl⟩
      | succ j =>
          have hih := ih (k + 1) j (by simpa using h)
          constructor
          · show (evGet (pushedEvents (k + 1) ps) j).next_event = k + (j + 1) + 1
            rw [hih.1]
            omega
          · exact hih.2

/-- The freshly pushed event list forms the chain `k, k+1, …`. -/
theorem initPath (ev : List TraversalEvent)
    (hlink : ∀ i, i < ev.length → (evGet ev i).next_event = i + 1) :
    ∀ (n k : ℕ), k + n = ev.length →
    nextPath ev k (List.range' k n) ev.length := by
  intro n
  induction n with
  | zero =>
      intro k hk
      show k = ev.length
      omega
  | succ m ih =>
      intro k hk
      rw [List.range'_succ]
      refine ⟨rfl, by omega, ?_⟩
      show isPathF (fun e => e.next_event) ev ((evGet ev k).next_event)
        (List.range' (k + 1) m) ev.length
      rw [hlink k (by omega)]
      exact ih (k + 1) (by omega)

theorem range'_getLast : ∀ (m k : ℕ),
    (List.range' k (m + 1)).getLast? = some (k + m) := by
  intro m
  induction m with
  | zero => intro k; simp
  | succ j ih =>
      intro k
      rw [List.range'_succ, List.range'_succ, List.getLast?_cons_cons,
        ← List.range'_succ, ih]
      have hq : k + 1 + j = k + (j + 1) := by omega
      rw [hq]

theorem singleton_flatten : ∀ (l : List ℕ), (l.map (fun i => [i])).flatten = l := by
  intro l
  induction l with
  | nil => rfl
  | cons a l ih => simp [List.flatten_cons, ih]

/-- Each event alone is its own sibling group in a freshly pushed buffer. -/
theorem singleton_groups (ev : List TraversalEvent)
    (hsib : ∀ i, i < ev.length → (evGet ev i).next_sibling = usizeMax)
    (husz : ¬ usizeMax < ev.length) :
    groupsOk ev (List.range ev.length) ((List.range ev.length).map (fun i => [i])) := by
  constructor
  · have hgen : ∀ l : List ℕ, (∀ x ∈ l, x < ev.length) →
        List.Forall₂ (fun c g => sibChainOf ev c g ∧ ∀ x ∈ g, posAt ev x = posAt ev c)
          l (l.map (fun i => [i])) := by
      intro l
      induction l with
      | nil => intro hm; exact List.Forall₂.nil
      | cons a l ih =>
          intro hm
          have ha : a < ev.length := hm a (List.mem_cons_self _ _)
          refine List.Forall₂.cons ⟨⟨usizeMax, ⟨rfl, ha, hsib a ha⟩, husz⟩, ?_⟩
            (ih fun x hx => hm x (List.mem_cons_of_mem _ hx))
          intro x hx
          rw [List.mem_singleton.mp hx]
    exact hgen _ (fun x hx => List.mem_range.mp hx)
  · rw [singleton_flatten]

/-- Membership on the left of an alignment yields an aligned partner. -/
theorem forall2_mem_left {R : ℕ → List ℕ → Prop} :
    ∀ (C : List ℕ) (G : List (List ℕ)), List.Forall₂ R C G →
    ∀ c ∈ C, ∃ g ∈ G, R c g := by
  intro C
  induction C with
  | nil => intro G h c hc; cases hc
  | cons a C ih =>
      intro G h c hc
      obtain ⟨g, G2, hag, hrest, rfl⟩ := List.forall₂_cons_left_iff.mp h
      rcases List.mem_cons.mp hc with rfl | hc
      · exact ⟨g, List.mem_cons_self _ _, hag⟩
      · obtain ⟨g2, hg2, hr2⟩ := ih G2 hrest c hc
        exact ⟨g2, List.mem_cons_of_mem _ hg2, hr2⟩

/-- Membership in the flattened groups yields the aligned chain node. -/
theorem forall2_mem_flatten {R : ℕ → List ℕ → Prop} :
    ∀ (C : List ℕ) (G : List (List ℕ)), List.Forall₂ R C G →
    ∀ x, x ∈ G.flatten → ∃ c g, c ∈ C ∧ R c g ∧ x ∈ g := by
  intro C
  induction C with
  | nil =>
      intro G h x hx
      cases h
      cases hx
  | cons a C ih =>
      intro G h x hx
      obtain ⟨g, G2, hag, hrest, rfl⟩ := List.forall₂_cons_left_iff.mp h
      rw [List.flatten_cons] at hx
      rcases List.mem_append.mp hx with hx | hx
      · exact ⟨a, g, List.mem_cons_self _ _, hag, hx⟩
      · obtain ⟨c, g2, hc, hr, hxg⟩ := ih G2 hrest x hx
        exact ⟨c, g2, List.mem_cons_of_mem _ hc, hr, hxg⟩

theorem pairwise_mem_cases {R : ℕ → ℕ → Prop} :
    ∀ (l : List ℕ), l.Pairwise R → ∀ a ∈ l, ∀ b ∈ l, a = b ∨ R a b ∨ R b a := by
  intro l
  induction l with
  | nil => intro h a ha; cases ha
  | cons x l ih =>
      intro h a ha b hb
      obtain ⟨hx, hl⟩ := List.pairwise_cons.mp h
      rcases List.mem_cons.mp ha with hax | ha2
      · rcases List.mem_cons.mp hb with hbx | hb2
        · exact Or.inl (hax.trans hbx.symm)
        · refine Or.inr (Or.inl ?_)
          rw [hax]
          exact hx b hb2
      · rcases List.mem_cons.mp hb with hbx | hb2
        · refine Or.inr (Or.inr ?_)
          rw [hbx]
          exact hx a ha2
        · exact ih hl a ha2 b hb2

/-- From the sorted postcondition: every event's position occurs on the
chain, and each chain head's sibling chain is exactly the set of events at
the head's position. -/
theorem sorted_events_exact (ev : List TraversalEvent) (fst : ℕ)
    (h : SortedEvents ev fst) :
    ∃ C ex, nextPath ev fst C ex ∧ ¬ ex < ev.length ∧ chainSorted ev C ∧
      (∃ G, groupsOk ev C G) ∧
      (∀ x, x < ev.length → ∃ c ∈ C, posAt ev x = posAt ev c) ∧
      ∀ c ∈ C, ∀ g, sibChainOf ev c g → ∀ x, x < ev.length →
        (x ∈ g ↔ posAt ev x = posAt ev c) := by
  obtain ⟨C, G, ex, hp, hx, hs, hga, hperm⟩ := h
  refine ⟨C, ex, hp, hx, hs, ⟨G, hga, hperm⟩, ?_, ?_⟩
  · intro x hxlen
    have hxfl : x ∈ G.flatten := hperm.mem_iff.mpr (List.mem_range.mpr hxlen)
    obtain ⟨c2, g2, hc2C, hrel2, hxg2⟩ := forall2_mem_flatten C G hga x hxfl
    exact ⟨c2, hc2C, hrel2.2 x hxg2⟩
  intro c hc g hgc x hxlen
  obtain ⟨g₀, hg₀G, hcg₀⟩ := forall2_mem_left C G hga c hc
  obtain ⟨e1, hp1, he1⟩ := hgc
  obtain ⟨e0, hp0, he0⟩ := hcg₀.1
  obtain ⟨hgeq, -⟩ := isPathF_unique _ ev g g₀ c e1 e0 he1 he0 hp1 hp0
  subst hgeq
  constructor
  · intro hxg
    exact hcg₀.2 x hxg
  · intro hpos
    have hxfl : x ∈ G.flatten := hperm.mem_iff.mpr (List.mem_range.mpr hxlen)
    obtain ⟨c2, g2, hc2C, hrel2, hxg2⟩ := forall2_mem_flatten C G hga x hxfl
    have hposx : posAt ev x = posAt ev c2 := hrel2.2 x hxg2
    have hcc : c2 = c := by
      have hpw := chainSorted_pairwise ev C hs
      rcases pairwise_mem_cases C hpw c2 hc2C c hc with he | hr | hr
      · exact he
      · exfalso
        have hr2 : is_after (posAt ev c) (posAt ev c2) := hr
        rw [← hposx, hpos] at hr2
        exact is_after_irrefl _ hr2
      · exfalso
        have hr2 : is_after (posAt ev c2) (posAt ev c) := hr
        rw [← hposx, hpos] at hr2
        exact is_after_irrefl _ hr2
    rw [hcc] at hrel2
    obtain ⟨e2, hp2, he2⟩ := hrel2.1
    obtain ⟨hgeq2, -⟩ := isPathF_unique _ ev g2 g c e2 e1 he2 he1 hp2 hp1
    rw [← hgeq2]
    exact hxg2

/-- The invariant holds when the loop is entered on a freshly pushed
buffer of at least two events. -/
theorem initial_inv (ev : List TraversalEvent) (hn : 2 ≤ ev.length)
    (hlink : ∀ i, i < ev.length → (evGet ev i).next_event = i + 1)
    (hsib : ∀ i, i < ev.length → (evGet ev i).next_sibling = usizeMax)
    (husz : ¬ usizeMax < ev.length) :
    SortInvP ⟨ev, 0, 0, 0, ev.length - 1, false⟩ [] (List.range' 1 (ev.length - 1))
      ((List.range ev.length).map (fun i => [i])) ev.length
      [] [] (List.range ev.length) [] := by
  obtain ⟨m, hm⟩ : ∃ m, ev.length = m + 1 := ⟨ev.length - 1, by omega⟩
  have hrange : List.range ev.length = 0 :: List.range' 1 (ev.length - 1) := by
    rw [List.range_eq_range', hm, List.range'_succ]
    norm_num
  refine
    { hn := hn
      path := ?_
      exit := ?_
      groups := ?_
      role := Or.inl ⟨rfl, rfl⟩
      pre_split := rfl
      runAbove := ?_
      runSorted := ?_
      noswapF := fun _ => rfl
      settled_split := ?_
      sortedS := List.chain'_nil
      aboveS := ?_
      disjFS := ?_
      lastA := ?_
      swapWitness := ?_ }
  · show nextPath ev 0 ([] ++ 0 :: List.range' 1 (ev.length - 1)) ev.length
    rw [List.nil_append, ← hrange, List.range_eq_range']
    exact initPath ev hlink ev.length 0 (by omega)
  · show ¬ ev.length < ev.length
    omega
  · show groupsOk ev ([] ++ 0 :: List.range' 1 (ev.length - 1)) _
    rw [List.nil_append, ← hrange]
    exact singleton_groups ev hsib husz
  · intro i hi x hx
    cases hx
  · show chainSorted ev ([] ++ [0])
    rw [List.nil_append]
    exact List.chain'_singleton _
  · show [] ++ 0 :: List.range' 1 (ev.length - 1) = List.range ev.length ++ []
    rw [List.nil_append, List.append_nil, hrange]
  · intro a ha b hb
    cases hb
  · intro a ha hb
    cases ha
  · intro hmem
    show (List.range ev.length).getLast? = some (ev.length - 1)
    rw [List.range_eq_range', hm, range'_getLast]
    norm_num
  · intro hx
    simp at hx

theorem pushSeq_events (pushes : List Point) :
    (pushSeq pushes).events = pushedEvents 0 pushes := by
  unfold pushSeq
  rw [foldl_push_events]
  rfl

theorem pushSeq_first (pushes : List Point) : (pushSeq pushes).first = 0 := by
  unfold pushSeq
  rw [foldl_push_first]
  rfl

theorem pushSeq_sorted (pushes : List Point) : (pushSeq pushes).sorted = false :=
  foldl_push_sorted pushes Traversal.new rfl

/-- The loop, entered on a freshly pushed buffer of at least two events,
returns a sorted result within the quadratic fuel. -/
theorem sortRun_init (pushes : List Point) (hcap : pushes.length ≤ usizeMax)
    (hn : 2 ≤ pushes.length) :
    ∃ res, sortRun (sortFuel pushes.length)
        ⟨pushedEvents 0 pushes, 0, 0, 0, pushes.length - 1, false⟩ = some res ∧
      SortedEvents res.events res.first := by
  have hevlen : (pushedEvents 0 pushes).length = pushes.length :=
    pushedEvents_length pushes 0
  have hlink : ∀ i, i < (pushedEvents 0 pushes).length →
      (evGet (pushedEvents 0 pushes) i).next_event = i + 1 := by
    intro i hi
    have h := pushedEvents_link pushes 0 i (by omega)
    rw [h.1]
    omega
  have hsib : ∀ i, i < (pushedEvents 0 pushes).length →
      (evGet (pushedEvents 0 pushes) i).next_sibling = usizeMax := by
    intro i hi
    exact (pushedEvents_link pushes 0 i (by omega)).2
  have husz : ¬ usizeMax < (pushedEvents 0 pushes).length := by omega
  have hinv := initial_inv (pushedEvents 0 pushes) (by omega) hlink hsib husz
  rw [hevlen] at hinv
  refine sortRun_ok (sortFuel pushes.length) (pushes.length + 1)
    (2 * pushes.length + 1) _ [] (List.range' 1 (pushes.length - 1)) _
    pushes.length [] [] (List.range pushes.length) [] hinv ?_ ?_ ?_
  · dsimp only
    rw [hevlen]
    simp only [List.length_nil, List.length_range']
    omega
  · dsimp only
    rw [hevlen]
    simp only [List.length_nil, List.length_range']
    omega
  · dsimp only
    rw [hevlen]
    show (pushes.length + 1) * (2 * pushes.length + 3) + (2 * pushes.length + 1) <
      sortFuel pushes.length
    have e1 : (pushes.length + 1) * (2 * pushes.length + 3) + (2 * pushes.length + 1) +
        (pushes.length + 4) = 2 * (pushes.length + 2) * (pushes.length + 2) := by
      ring
    unfold sortFuel
    rw [← e1]
    exact Nat.lt_add_of_pos_right (by omega)

/-- Any start state already at its `last` bound with `swapped` clear exits
the loop on the first iteration. -/
theorem sortRun_small (st : SortState) (fuel : ℕ) (hf : 0 < fuel)
    (hcl : st.current = st.last) (hsw : st.swapped = false) :
    sortRun fuel st =
      some { st with last := st.prev, prev := st.first, current := st.first } := by
  obtain ⟨f, rfl⟩ : ∃ f, fuel = f + 1 := ⟨fuel - 1, by omega⟩
  have hstep : sortStep st =
      Sum.inr { st with last := st.prev, prev := st.first, current := st.first } := by
    unfold sortStep
    rw [if_pos (Or.inl hcl), if_pos (Or.inl hsw)]
  simp only [sortRun]
  rw [hstep]

/-- How `Traversal::sort` relates to the loop on a large unsorted input. -/
theorem sort_big (pushes : List Point) (hn : 2 ≤ pushes.length) (res : SortState)
    (hrun : sortRun (sortFuel pushes.length)
      ⟨pushedEvents 0 pushes, 0, 0, 0, pushes.length - 1, false⟩ = some res) :
    ((pushSeq pushes).sort).events = res.events ∧
    ((pushSeq pushes).sort).first = res.first := by
  have hlen : (pushSeq pushes).events.length = pushes.length := by
    rw [pushSeq_events, pushedEvents_length]
  unfold Traversal.sort
  rw [pushSeq_sorted, if_neg Bool.false_ne_true]
  dsimp only
  rw [hlen, if_neg (by omega), pushSeq_events, pushSeq_first, hrun]
  exact ⟨rfl, rfl⟩

/-- `Traversal::sort` returns the input unchanged (marked sorted) on small
inputs. -/
theorem sort_small (pushes : List Point) (hn : pushes.length ≤ 1) :
    ((pushSeq pushes).sort).events = (pushSeq pushes).events ∧
    ((pushSeq pushes).sort).first = (pushSeq pushes).first := by
  have hlen : (pushSeq pushes).events.length = pushes.length := by
    rw [pushSeq_events, pushedEvents_length]
  unfold Traversal.sort
  rw [pushSeq_sorted, if_neg Bool.false_ne_true]
  dsimp only
  rw [hlen, if_pos hn]
  exact ⟨rfl, rfl⟩

/-- The empty buffer is vacuously sorted. -/
theorem sortedEvents_nil : SortedEvents [] 0 := by
  refine ⟨[], [], 0, rfl, by simp, List.chain'_nil, List.Forall₂.nil, ?_⟩
  simp

/-- A single event is sorted, with itself as its whole sibling group. -/
theorem sortedEvents_one (e : TraversalEvent)
    (hne : e.next_event = 1) (hns : e.next_sibling = usizeMax) :
    SortedEvents [e] 0 := by
  refine ⟨[0], [[0]], 1, ⟨rfl, by simp, ?_⟩, by simp, List.chain'_singleton _,
    ?_, ?_⟩
  · show (evGet [e] 0).next_event = 1
    exact hne
  · refine List.Forall₂.cons ⟨⟨usizeMax, ⟨rfl, by simp, ?_⟩, ?_⟩, ?_⟩ List.Forall₂.nil
    · show (evGet [e] 0).next_sibling = usizeMax
      exact hns
    · show ¬ usizeMax < ([e] : List TraversalEvent).length
      unfold usizeMax
      simp
    · intro x hx
      rw [List.mem_singleton.mp hx]
  · show List.Perm ([0] ++ ([] : List (List ℕ)).flatten) (List.range 1)
    have hr : List.range 1 = [0] := by decide
    rw [hr]
    simp

/-- **C1**: for every event set built by a sequence of `push` calls, after
`Traversal::sort` the links satisfy the sorted postcondition: following
`next_event` from `first` walks a chain with strictly increasing `(y, x)`
positions (so each distinct position is visited exactly once), every
pushed position occurs on the chain, the chain and every sibling chain end
in an out-of-range link (`valid_id` false), and from each chain head the
`next_sibling` chain (head included) enumerates exactly the pushed events
whose position equals the head's position. -/
theorem traversal_sort_postcondition (pushes : List Point)
    (hcap : pushes.length ≤ usizeMax) :
    ∃ C ex,
      nextPath ((pushSeq pushes).sort).events ((pushSeq pushes).sort).first C ex ∧
      ¬ ((pushSeq pushes).sort).valid_id ex ∧
      chainSorted ((pushSeq pushes).sort).events C ∧
      (∃ G, groupsOk ((pushSeq pushes).sort).events C G) ∧
      (∀ x, x < ((pushSeq pushes).sort).events.length →
        ∃ c ∈ C, posAt ((pushSeq pushes).sort).events x =
          posAt ((pushSeq pushes).sort).events c) ∧
      ∀ c ∈ C, ∀ g, sibChainOf ((pushSeq pushes).sort).events c g →
        ∀ x, x < ((pushSeq pushes).sort).events.length →
          (x ∈ g ↔ posAt ((pushSeq pushes).sort).events x =
            posAt ((pushSeq pushes).sort).events c) := by
  simp only [Traversal.valid_id]
  by_cases hn : 2 ≤ pushes.length
  · obtain ⟨res, hrun, hsorted⟩ := sortRun_init pushes hcap hn
    obtain ⟨hse, hsf⟩ := sort_big pushes hn res hrun
    rw [hse, hsf]
    exact sorted_events_exact res.events res.first hsorted
  · obtain ⟨hse, hsf⟩ := sort_small pushes (by omega)
    rw [hse, hsf, pushSeq_events, pushSeq_first]
    cases pushes with
    | nil => exact sorted_events_exact _ _ sortedEvents_nil
    | cons p rest =>
        cases rest with
        | nil => exact sorted_events_exact _ _ (sortedEvents_one ⟨usizeMax, 1, p⟩ rfl rfl)
        | cons q rest2 =>
            exfalso
            simp only [List.length_cons] at hn
            omega

/-- Witness for the C1 theorem at a concrete two-point input. -/
theorem traversal_sort_postcondition_witness :
    ∃ C ex,
      nextPath ((pushSeq [point 1 2, point 0 0]).sort).events
        ((pushSeq [point 1 2, point 0 0]).sort).first C ex ∧
      ¬ ((pushSeq [point 1 2, point 0 0]).sort).valid_id ex ∧
      chainSorted ((pushSeq [point 1 2, point 0 0]).sort).events C ∧
      (∃ G, groupsOk ((pushSeq [point 1 2, point 0 0]).sort).events C G) ∧
      (∀ x, x < ((pushSeq [point 1 2, point 0 0]).sort).events.length →
        ∃ c ∈ C, posAt ((pushSeq [point 1 2, point 0 0]).sort).events x =
          posAt ((pushSeq [point 1 2, point 0 0]).sort).events c) ∧
      ∀ c ∈ C, ∀ g, sibChainOf ((pushSeq [point 1 2, point 0 0]).sort).events c g →
        ∀ x, x < ((pushSeq [point 1 2, point 0 0]).sort).events.length →
          (x ∈ g ↔ posAt ((pushSeq [point 1 2, point 0 0]).sort).events x =
            posAt ((pushSeq [point 1 2, point 0 0]).sort).events c) :=
  traversal_sort_postcondition [point 1 2, point 0 0] (by decide)

/-- **C10**: `Traversal::sort` terminates on every pushed buffer: the pass
loop, started exactly the way `Traversal::sort` starts it, reaches its
`return` within `sortFuel` list steps, and `sortFuel` is quadratic in the
number of events. -/
theorem traversal_sort_terminates (pushes : List Point)
    (hcap : pushes.length ≤ usizeMax) :
    (∃ res, sortRun (sortFuel (pushSeq pushes).events.length)
        ⟨(pushSeq pushes).events, (pushSeq pushes).first, 0, 0,
          (pushSeq pushes).events.length - 1, false⟩ = some res) ∧
    sortFuel (pushSeq pushes).events.length =
      2 * ((pushSeq pushes).events.length + 2) *
        ((pushSeq pushes).events.length + 2) := by
  constructor
  · rw [pushSeq_events, pushSeq_first, pushedEvents_length]
    by_cases hn : 2 ≤ pushes.length
    · obtain ⟨res, hrun, -⟩ := sortRun_init pushes hcap hn
      exact ⟨res, hrun⟩
    · refine ⟨_, sortRun_small _ _ ?_ ?_ rfl⟩
      · unfold sortFuel
        positivity
      · show (0 : ℕ) = pushes.length - 1
        omega
  · rfl

/-- Witness for the C10 theorem at a concrete three-point input. -/
theorem traversal_sort_terminates_witness :
    (∃ res, sortRun (sortFuel (pushSeq [point 0 0, point 2 1, point 1 1]).events.length)
        ⟨(pushSeq [point 0 0, point 2 1, point 1 1]).events,
          (pushSeq [point 0 0, point 2 1, point 1 1]).first, 0, 0,
          (pushSeq [point 0 0, point 2 1, point 1 1]).events.length - 1, false⟩ =
        some res) ∧
    sortFuel (pushSeq [point 0 0, point 2 1, point 1 1]).events.length =
      2 * ((pushSeq [point 0 0, point 2 1, point 1 1]).events.length + 2) *
        ((pushSeq [point 0 0, point 2 1, point 1 1]).events.length + 2) :=
  traversal_sort_terminates [point 0 0, point 2 1, point 1 1] (by decide)

end Lyon
